import Mathlib

/-!
# felixge/hosts: the managed-host codec, the toggle and the report

A shallow embedding of `main.go`.

A Go `string` is modelled as a `List Char`, one list element per element of the
Go string. Every operation the program applies to strings compares elements
for equality only (with the ASCII characters of the constants, or with each
other in `strings.Contains`), so the model does not depend on how the elements
are encoded.
-/

set_option maxRecDepth 100000
set_option maxHeartbeats 4000000

namespace Hosts

/-! ## Constants (main.go 15-19) -/

/-- The constant `hostsPath`. -/
def hostsPath : List Char := "/etc/hosts".toList

/-- The constant `hostsMarker`. -/
def hostsMarker : List Char := "# do not edit; managed by github.com/felixge/hosts".toList

/-- The constant `blockIP`. -/
def blockIP : List Char := "127.0.0.1".toList

/-! ## The `regexp` package, as far as `blockRegexp` uses it -/

/-- Abstract syntax of the regular expressions that occur in `blockRegexp`. -/
inductive Regexp where
  /-- The empty expression, matching the empty string. -/
  | empty : Regexp
  /-- A literal character. -/
  | lit : Char → Regexp
  /-- A negated character class: one character that is none of the listed ones. -/
  | notChars : List Char → Regexp
  /-- The assertion written `^` under the POSIX flags: start of text or just after a line feed. -/
  | beginLine : Regexp
  /-- Concatenation. -/
  | cat : Regexp → Regexp → Regexp
  /-- The operator `e?`, zero or one occurrence, one preferred. -/
  | quest : Regexp → Regexp
  /-- The operator `e+`, one or more occurrences, more preferred. -/
  | plus : Regexp → Regexp
  /-- A numbered capturing group. -/
  | capture : Nat → Regexp → Regexp
  deriving DecidableEq

/-- A literal string, as produced by `regexp.QuoteMeta` followed by parsing. -/
def Regexp.str : List Char → Regexp
  | [] => Regexp.empty
  | c :: cs => Regexp.cat (Regexp.lit c) (Regexp.str cs)

/-- One way of having matched an expression up to some position of the text:
the text behind the position (nearest character first), the text still ahead,
and the groups captured so far (most recent first). -/
structure Thread where
  before : List Char
  rest : List Char
  caps : List (Nat × List Char)
  deriving DecidableEq

/-- The text consumed between an earlier thread state and a later one. -/
def consumed (before after : List Char) : List Char :=
  before.take (before.length - after.length)

/-- The iteration of `e+`: run the body once, then either iterate again
(preferred) or stop. A further iteration is only tried after the body has
consumed something. The first argument bounds the number of iterations. -/
def plusLoop (step : Thread → List Thread) : Nat → Thread → List Thread
  | 0, _ => []
  | n + 1, t =>
    (step t).flatMap fun u =>
      (if u.rest.length < t.rest.length then plusLoop step n u else []) ++ [u]

/-- All ways of matching an expression at the position of a thread, in the
order a backtracking search finds them. -/
def Regexp.run : Regexp → Thread → List Thread
  | .empty, t => [t]
  | .lit c, t =>
    match t.rest with
    | [] => []
    | x :: xs => if x = c then [{ t with before := x :: t.before, rest := xs }] else []
  | .notChars cs, t =>
    match t.rest with
    | [] => []
    | x :: xs => if x ∈ cs then [] else [{ t with before := x :: t.before, rest := xs }]
  | .beginLine, t =>
    match t.before with
    | [] => [t]
    | c :: _ => if c = '\n' then [t] else []
  | .cat a b, t => (a.run t).flatMap b.run
  | .quest a, t => a.run t ++ [t]
  | .plus a, t => plusLoop a.run (t.rest.length + 1) t
  | .capture i a, t =>
    (a.run t).map fun u => { u with caps := (i, consumed t.rest u.rest) :: u.caps }

/-- The first among the longest matches: the thread with the least text ahead,
the earlier one on a tie. -/
def longest : List Thread → Option Thread
  | [] => none
  | t :: ts =>
    match longest ts with
    | none => some t
    | some u => if u.rest.length < t.rest.length then some u else some t

/-- The leftmost-longest match of an expression in a text: the first start
position at which the expression matches, with the longest match there. The
result is the text from the start position on, and the winning thread. -/
def findMatch (re : Regexp) : List Char → List Char → Option (List Char × Thread)
  | before, [] => (longest (re.run ⟨before, [], []⟩)).map fun t => ([], t)
  | before, c :: cs =>
    match longest (re.run ⟨before, c :: cs, []⟩) with
    | some t => some (c :: cs, t)
    | none => findMatch re (c :: before) cs

/-- The text of a capturing group of a thread, empty when the group did not take part. -/
def capText (caps : List (Nat × List Char)) (i : Nat) : List Char :=
  match caps.find? (fun p => p.1 == i) with
  | some p => p.2
  | none => []

/-- The method `(*Regexp).FindStringSubmatch` for an expression with
`ngroups` capturing groups: the matched text followed by the text of each
group, or the empty slice when nothing matches. -/
def FindStringSubmatch (re : Regexp) (ngroups : Nat) (s : List Char) : List (List Char) :=
  match findMatch re [] s with
  | none => []
  | some (start, t) =>
    consumed start t.rest :: (List.range ngroups).map fun i => capText t.caps (i + 1)

/-! ## The `strings` package -/

/-- The function `strings.Split` for a one-character separator: the pieces
between the occurrences of the separator, empty pieces kept. -/
def Split : List Char → Char → List (List Char)
  | [], _ => [[]]
  | c :: cs, sep =>
    if c = sep then [] :: Split cs sep
    else
      match Split cs sep with
      | [] => [[c]]
      | p :: ps => (c :: p) :: ps

/-- The function `strings.Join`. -/
def Join : List (List Char) → List Char → List Char
  | [], _ => []
  | [a], _ => a
  | a :: b :: rest, sep => a ++ sep ++ Join (b :: rest) sep

/-- Whether the second string starts the first. -/
def HasPrefix : List Char → List Char → Bool
  | _, [] => true
  | [], _ :: _ => false
  | x :: xs, y :: ys => x == y && HasPrefix xs ys

/-- The function `strings.Contains`: whether `substr` occurs in `s`. -/
def Contains : List Char → List Char → Bool
  | [], substr => substr.isEmpty
  | x :: xs, substr => HasPrefix (x :: xs) substr || Contains xs substr

/-! ## The codec (main.go 164-193) -/

/-- The type `HostLine`: one raw line of the host file. -/
abbrev HostLine := List Char

/-- The type `HostLines`. -/
abbrev HostLines := List HostLine

/-- The type `ManagedHost`. -/
structure ManagedHost where
  Hosts : List (List Char)
  Blocked : Bool
  deriving DecidableEq

/-- The variable `blockRegexp`, the parse of
`^(# )?127\.0\.0\.1 ([^#]+) # do not edit; managed by github\.com/felixge/hosts`
under `regexp.MustCompilePOSIX`: with the POSIX flags `^` is the begin-of-line
assertion and a negated class does not match the line feed. -/
def blockRegexp : Regexp :=
  .cat .beginLine
    (.cat (.quest (.capture 1 (.str "# ".toList)))
      (.cat (.str blockIP)
        (.cat (.lit ' ')
          (.cat (.capture 2 (.plus (.notChars ['#', '\n'])))
            (.cat (.lit ' ') (.str hostsMarker))))))

/-- The method `HostLine.ManagedHost`: decode a raw line. -/
def HostLine.ManagedHost (h : HostLine) : Option Hosts.ManagedHost :=
  match FindStringSubmatch blockRegexp 2 h with
  | [_, m1, m2] => some { Hosts := Split m2 ' ', Blocked := m1 != "# ".toList }
  | _ => none

/-- The method `ManagedHost.HostLine`: encode a record. -/
def ManagedHost.HostLine (mh : Hosts.ManagedHost) : HostLine :=
  let hl : List Char := []
  let hl := if !mh.Blocked then hl ++ "# ".toList else hl
  let hl := hl ++ (blockIP ++ " ".toList)
  let hl := hl ++ (Join mh.Hosts " ".toList ++ " ".toList)
  let hl := hl ++ hostsMarker
  hl

/-- The reference definition of `Decode`, after the specification (4.2): the
line starts with an optional `"# "`, then the sentinel address, a space, a
non-empty hostnames segment without `#`, a space and the marker verbatim. The
record has `Blocked` true iff the leading `"# "` is absent, and `Hosts` is the
segment split on every single space, empty tokens kept. -/
def DecodeSpec (line : List Char) (r : Hosts.ManagedHost) : Prop :=
  ∃ (commented : Bool) (seg rest : List Char),
    seg ≠ [] ∧ '#' ∉ seg ∧
    line = (if commented then "# ".toList else []) ++ "127.0.0.1".toList ++ " ".toList ++ seg
      ++ " ".toList ++ "# do not edit; managed by github.com/felixge/hosts".toList ++ rest ∧
    (r.Blocked = true ↔ commented = false) ∧ r.Hosts = seg.splitOn ' '

/-! ## The toggle (main.go 119-141) -/

/-- The filter test inside `SetBlocked`: `match` starts as `len(filter) == 0`
and becomes true at the first filter string contained in some hostname. -/
def filterMatch (mh : Hosts.ManagedHost) (filter : List (List Char)) : Bool :=
  filter.length == 0 || filter.any fun f => mh.Hosts.any fun h => Contains h f

/-- One iteration of the loop of `SetBlocked`, at index `i` of the slice. -/
def setBlockedStep (blocked : Bool) (filter : List (List Char)) (hl : HostLines) (i : Nat) :
    HostLines :=
  match hl[i]? with
  | none => hl
  | some l =>
    match HostLine.ManagedHost l with
    | none => hl
    | some mh =>
      if filterMatch mh filter then
        hl.set i (ManagedHost.HostLine { mh with Blocked := blocked })
      else hl

/-- The method `HostLines.SetBlocked`: the loop over the indices of the slice,
which is updated in place. The result is the slice after the call. -/
def SetBlocked (hl : HostLines) (blocked : Bool) (filter : List (List Char)) : HostLines :=
  (List.range hl.length).foldl (setBlockedStep blocked filter) hl

/-! ## The report (main.go 85-117, 158-162) -/

/-- The function `fprintf` on a writer that accepts every write: the writer is
the text written so far, and the formatted text is appended to it. -/
def fprintf (w : List Char) (text : List Char) : List Char := w ++ text

/-- The first loop of `Fprint`: the decoded records, split into the blocked
and the unblocked ones, each appended in turn. -/
def partitionHosts (hl : HostLines) : List Hosts.ManagedHost × List Hosts.ManagedHost :=
  hl.foldl (fun acc l =>
    match HostLine.ManagedHost l with
    | none => acc
    | some mh => if mh.Blocked then (acc.1 ++ [mh], acc.2) else (acc.1, acc.2 ++ [mh]))
    ([], [])

/-- The body of the second loop of `Fprint` for section number `i`. -/
def fprintSection (w : List Char) (i : Nat) (name : List Char)
    (hosts : List Hosts.ManagedHost) : List Char :=
  let w := if i != 0 then fprintf w "\n".toList else w
  let w := fprintf w (name ++ ":\n".toList)
  hosts.foldl (fun w mh => fprintf w ("  ".toList ++ Join mh.Hosts ", ".toList ++ "\n".toList)) w

/-- The method `HostLines.Fprint`: the text on the writer after the call. -/
def Fprint (hl : HostLines) (w : List Char) : List Char :=
  let (blocked, unblocked) := partitionHosts hl
  let w := fprintSection w 0 "Unblocked".toList unblocked
  let w := fprintSection w 1 "Blocked".toList blocked
  w

/-! ## The line store (main.go 143-156) -/

/-- An open file: its content and the offset of the next write. -/
structure File where
  content : List Char
  offset : Nat
  deriving DecidableEq

/-- The call `os.OpenFile(path, os.O_WRONLY, 0666)` on a file system in which
the path holds `fs` (`none` when there is no such file, or none that may be
opened for writing): the flags neither create nor truncate, so the content
stays and the offset is zero. -/
def OpenFile (fs : Option (List Char)) : Option File :=
  fs.map fun content => { content := content, offset := 0 }

/-- A successful write to an open file: the bytes go to the current offset,
over what was there, and the offset advances. -/
def File.Write (f : File) (p : List Char) : File :=
  { content := f.content.take f.offset ++ p ++ f.content.drop (f.offset + p.length)
    offset := f.offset + p.length }

/-- The method `HostLines.Save` when every write succeeds: the content of the
file afterwards, or `none` when the file cannot be opened. -/
def Save (hl : HostLines) (fs : Option (List Char)) : Option (List Char) :=
  match OpenFile fs with
  | none => none
  | some hf => some (hl.foldl (fun hf l => hf.Write (l ++ "\n".toList)) hf).content

/-! ## The line reader (main.go 59-81)

A `bufio.Reader` over a file whose reads succeed is modelled by the bytes not
yet consumed: the buffer holds the first of them, at most `size`. -/

/-- The constant `defaultBufSize` of package `bufio`, the buffer size that
`bufio.NewReader` uses. -/
def defaultBufSize : Nat := 4096

/-- The function `bytes.IndexByte`. -/
def IndexByte : List Char → Char → Option Nat
  | [], _ => none
  | x :: xs, c => if x = c then some 0 else (IndexByte xs c).map (· + 1)

/-- The errors of a `bufio.Reader` over a file whose reads succeed. -/
inductive ReadErr where
  | ErrBufferFull : ReadErr
  | EOF : ReadErr
  deriving DecidableEq

/-- The method `(*bufio.Reader).ReadSlice`: the bytes up to and including the
first delimiter when it is among the first `size` bytes; everything with `EOF`
when fewer than `size` bytes are left and none is the delimiter; otherwise the
first `size` bytes with `ErrBufferFull`. The last component is what is left
to read. -/
def ReadSlice (size : Nat) (delim : Char) (s : List Char) :
    List Char × Option ReadErr × List Char :=
  match IndexByte (s.take size) delim with
  | some i => (s.take (i + 1), none, s.drop (i + 1))
  | none =>
    if s.length < size then (s, some ReadErr.EOF, [])
    else (s.take size, some ReadErr.ErrBufferFull, s.drop size)

/-- The method `(*bufio.Reader).ReadLine`: the line, `isPrefix`, the error and
what is left to read. -/
def ReadLine (size : Nat) (s : List Char) : List Char × Bool × Option ReadErr × List Char :=
  match ReadSlice size '\n' s with
  | (line, some ReadErr.ErrBufferFull, rest) =>
    if line.getLast? = some '\r' then (line.dropLast, true, none, '\r' :: rest)
    else (line, true, none, rest)
  | (line, err, rest) =>
    if line.length = 0 then ([], false, err, rest)
    else if line.getLast? = some '\n' then
      let drop := if line.length > 1 ∧ line.get? (line.length - 2) = some '\r' then 2 else 1
      (line.take (line.length - drop), false, none, rest)
    else (line, false, none, rest)

/-- The errors of `ReadHostLines`. -/
inductive LoadError where
  /-- The error of `os.Open`. -/
  | open : LoadError
  /-- The error `could not read line`. -/
  | read : LoadError
  /-- The error `line too long`, with the line number and the part read. -/
  | lineTooLong : Nat → List Char → LoadError
  deriving DecidableEq

/-- The result of `ReadHostLines`: the lines, or an error. -/
inductive LoadResult where
  | ok : HostLines → LoadResult
  | error : LoadError → LoadResult
  deriving DecidableEq

/-- The loop of `ReadHostLines`, with the line counter `i`, the lines read so
far and what is left to read. The first argument bounds the number of
iterations; `none` means the bound was reached. -/
def readLoop (size : Nat) : Nat → Nat → HostLines → List Char → Option LoadResult
  | 0, _, _, _ => none
  | fuel + 1, i, hl, s =>
    match ReadLine size s with
    | (_, _, some ReadErr.EOF, _) => some (LoadResult.ok hl)
    | (_, _, some _, _) => some (LoadResult.error LoadError.read)
    | (line, true, none, _) => some (LoadResult.error (LoadError.lineTooLong i line))
    | (line, false, none, rest) => readLoop size fuel (i + 1) (hl ++ [line]) rest

/-- The function `ReadHostLines` on a file system in which the path holds `fs`
(`none` when there is no such file). Every iteration but the last consumes a
byte, so one more iteration than there are bytes is enough. -/
def ReadHostLines (fs : Option (List Char)) : Option LoadResult :=
  match fs with
  | none => some (LoadResult.error LoadError.open)
  | some content => readLoop defaultBufSize (content.length + 1) 1 [] content

/-! ## The command line (main.go 28-57) -/

/-- The call `flag.Parse()` of a program that defines no flag, on the
arguments after the program name: the arguments left for `flag.Args()`, or
`none` when the process exits inside the call. An argument shorter than two
bytes or not starting with `-` ends the flags; `--` is dropped and ends the
flags; every other argument is an undefined flag. -/
def flagParse : List (List Char) → Option (List (List Char))
  | [] => some []
  | a :: rest =>
    if a.length < 2 ∨ a.head? ≠ some '-' then some (a :: rest)
    else if a = "--".toList then some rest
    else none

/-- The function `flag.Arg`. -/
def flagArg (args : List (List Char)) (i : Nat) : List Char :=
  match args[i]? with
  | some a => a
  | none => []

/-- The errors that `run` returns. -/
inductive RunError where
  | load : LoadError → RunError
  | save : RunError
  | unknownCmd : List Char → RunError
  deriving DecidableEq

/-- How a call of `run` ends: it returns an error or nil, or the process exits
inside `flag.Parse`. -/
inductive Outcome where
  | returned : Option RunError → Outcome
  | exited : Outcome
  deriving DecidableEq

/-- The surroundings of `run`: the host file (`none` when there is no such
file), whether the process may open it for writing, and the text on standard
output. -/
structure World where
  file : Option (List Char)
  writable : Bool
  stdout : List Char
  deriving DecidableEq

/-- The function `run` on the arguments after the program name. The file is
read whether or not it is writable; `Save` gets the file only when it may be
opened for writing, so that `os.OpenFile` fails otherwise and no report is
printed. The result is `none` only when the loop of `ReadHostLines` reaches
its bound. -/
def run (osArgs : List (List Char)) (w : World) : Option (Outcome × World) :=
  match ReadHostLines w.file with
  | none => none
  | some (LoadResult.error e) => some (Outcome.returned (some (RunError.load e)), w)
  | some (LoadResult.ok hl) =>
    match flagParse osArgs with
    | none => some (Outcome.exited, w)
    | some args =>
      let cmd := flagArg args 0
      let decision : Option (Bool × Bool) :=
        if cmd = [] then some (false, false)
        else if cmd = "block".toList then some (true, true)
        else if cmd = "unblock".toList then some (false, true)
        else none
      match decision with
      | none => some (Outcome.returned (some (RunError.unknownCmd cmd)), w)
      | some (block, update) =>
        if update then
          let hl2 := SetBlocked hl block (args.drop 1)
          match Save hl2 (if w.writable then w.file else none) with
          | none => some (Outcome.returned (some RunError.save), w)
          | some content =>
            some (Outcome.returned none,
              { w with file := some content, stdout := Fprint hl2 w.stdout })
        else some (Outcome.returned none, { w with stdout := Fprint hl w.stdout })

/-! ## Auxiliary definitions for the proofs -/

/-- The part of the pattern from the second group on: `([^#]+) ` and the marker. -/
def reHosts : Regexp :=
  .cat (.capture 2 (.plus (.notChars ['#', '\n']))) (.cat (.lit ' ') (.str hostsMarker))

/-- The text of a managed line up to the end of the marker, for a given
hostnames segment. -/
def lineText (commented : Bool) (seg : List Char) : List Char :=
  (if commented then "# ".toList else []) ++ (blockIP ++ ' ' :: (seg ++ ' ' :: hostsMarker))

/-- The groups captured by a match of the pattern. -/
def lineCaps (commented : Bool) (seg : List Char) : List (Nat × List Char) :=
  (2, seg) :: (if commented then [(1, "# ".toList)] else [])

/-- What the loop of `SetBlocked` does to one line. -/
def toggleLine (blocked : Bool) (filter : List (List Char)) (l : HostLine) : HostLine :=
  match HostLine.ManagedHost l with
  | none => l
  | some mh =>
    if filterMatch mh filter then ManagedHost.HostLine { mh with Blocked := blocked } else l

/-- The rows of one section of the report. -/
def reportRows (rs : List Hosts.ManagedHost) : List Char :=
  rs.flatMap fun r => "  ".toList ++ Join r.Hosts ", ".toList ++ "\n".toList

/-- A line without its carriage return, when it ends in one. -/
def dropCR (l : List Char) : List Char :=
  if l.getLast? = some '\r' then l.dropLast else l

/-- The content of a file that holds the given lines, each followed by one
line feed. -/
def serialize (lines : HostLines) : List Char :=
  lines.flatMap fun l => l ++ "\n".toList

/-! ## Lemmas on the matcher -/

theorem longest_eq_none {l : List Thread} : longest l = none ↔ l = [] := by
  cases l with
  | nil => simp [longest]
  | cons t ts =>
    simp only [longest]
    cases longest ts with
    | none => simp
    | some u => by_cases h : u.rest.length < t.rest.length <;> simp [h]

theorem longest_mem {l : List Thread} {u : Thread} (h : longest l = some u) : u ∈ l := by
  induction l generalizing u with
  | nil => simp [longest] at h
  | cons t ts ih =>
    simp only [longest] at h
    cases hl : longest ts with
    | none => simp [hl] at h; simp [h]
    | some v =>
      rw [hl] at h
      by_cases hlt : v.rest.length < t.rest.length
      · simp [hlt] at h; subst h; exact List.mem_cons_of_mem _ (ih hl)
      · simp [hlt] at h; simp [h]

theorem longest_of_all_eq {l : List Thread} {u : Thread} (hne : l ≠ [])
    (h : ∀ x ∈ l, x = u) : longest l = some u := by
  cases hl : longest l with
  | none => exact absurd (longest_eq_none.1 hl) hne
  | some v => rw [h v (longest_mem hl)]

theorem mem_run_str (l : List Char) (t u : Thread) :
    u ∈ (Regexp.str l).run t ↔
      ∃ r, t.rest = l ++ r ∧ u = ⟨l.reverse ++ t.before, r, t.caps⟩ := by
  induction l generalizing t with
  | nil =>
    simp only [Regexp.str, Regexp.run, List.mem_singleton, List.nil_append, List.reverse_nil]
    constructor
    · rintro rfl; exact ⟨_, rfl, rfl⟩
    · rintro ⟨r, hr, rfl⟩; subst hr; rfl
  | cons c cs ih =>
    simp only [Regexp.str, Regexp.run, List.mem_flatMap]
    constructor
    · rintro ⟨m, hm, hu⟩
      rcases t with ⟨tb, tr, tc⟩
      cases tr with
      | nil => simp at hm
      | cons x xs =>
        by_cases hx : x = c
        · simp [hx] at hm
          subst hm
          obtain ⟨r, hr, rfl⟩ := (ih _).1 hu
          simp at hr
          exact ⟨r, by simp [hx, hr], by simp⟩
        · simp [hx] at hm
    · rintro ⟨r, hr, rfl⟩
      rcases t with ⟨tb, tr, tc⟩
      simp at hr
      subst hr
      refine ⟨⟨c :: tb, cs ++ r, tc⟩, by simp, ?_⟩
      exact (ih _).2 ⟨r, rfl, by simp⟩

theorem mem_plusLoop_notChars (cs : List Char) (n : Nat) (t u : Thread) :
    u ∈ plusLoop (Regexp.notChars cs).run n t ↔
      ∃ seg r, seg ≠ [] ∧ seg.length ≤ n ∧ (∀ c ∈ seg, c ∉ cs) ∧ t.rest = seg ++ r ∧
        u = ⟨seg.reverse ++ t.before, r, t.caps⟩ := by
  induction n generalizing t with
  | zero =>
    simp only [plusLoop, List.not_mem_nil, false_iff]
    rintro ⟨seg, r, hne, hlen, -⟩
    exact hne (List.length_eq_zero.1 (Nat.le_zero.1 hlen))
  | succ n ih =>
    rcases t with ⟨tb, tr, tc⟩
    cases tr with
    | nil =>
      simp only [plusLoop, Regexp.run, List.flatMap_nil, List.not_mem_nil, false_iff]
      rintro ⟨seg, r, hne, -, -, hr, -⟩
      simp at hr
      exact hne hr.1
    | cons x xs =>
      by_cases hx : x ∈ cs
      · simp only [plusLoop, Regexp.run, hx, if_true, List.flatMap_nil, List.not_mem_nil,
          false_iff]
        rintro ⟨seg, r, hne, -, hall, hr, -⟩
        cases seg with
        | nil => exact hne rfl
        | cons y ys =>
          simp at hr
          exact hall y (List.mem_cons_self _ _) (hr.1 ▸ hx)
      · simp only [plusLoop, Regexp.run, hx, if_false, List.flatMap_cons, List.flatMap_nil,
          List.append_nil, List.length_cons, Nat.lt_succ_self, if_true, List.mem_append,
          List.mem_singleton]
        constructor
        · rintro (h | rfl)
          · obtain ⟨seg, r, hne, hlen, hall, hr, rfl⟩ := (ih _).1 h
            simp at hr
            refine ⟨x :: seg, r, by simp, by simp [hlen], ?_, by simp [hr], by simp⟩
            intro c hc
            rcases List.mem_cons.1 hc with rfl | hc
            · exact hx
            · exact hall c hc
          · exact ⟨[x], xs, by simp, by simp, by simpa using hx, by simp, by simp⟩
        · rintro ⟨seg, r, hne, hlen, hall, hr, rfl⟩
          cases seg with
          | nil => exact absurd rfl hne
          | cons y ys =>
            simp at hr
            obtain ⟨rfl, rfl⟩ := hr
            by_cases hys : ys = []
            · subst hys; right; simp
            · left
              refine (ih _).2 ⟨ys, r, hys, by simpa using hlen, ?_, by simp, by simp⟩
              intro c hc
              exact hall c (List.mem_cons_of_mem _ hc)

theorem consumed_append (seg r : List Char) : consumed (seg ++ r) r = seg := by
  simp [consumed]

theorem mem_run_lit (c : Char) (t u : Thread) :
    u ∈ (Regexp.lit c).run t ↔ ∃ r, t.rest = c :: r ∧ u = ⟨c :: t.before, r, t.caps⟩ := by
  rcases t with ⟨tb, tr, tc⟩
  cases tr with
  | nil => simp [Regexp.run]
  | cons x xs =>
    by_cases hx : x = c
    · subst hx; simp [Regexp.run]
    · simp [Regexp.run, hx]

theorem run_cat (a b : Regexp) (t : Thread) :
    (Regexp.cat a b).run t = (a.run t).flatMap b.run := by
  simp [Regexp.run]

theorem run_quest (a : Regexp) (t : Thread) : (Regexp.quest a).run t = a.run t ++ [t] := by
  simp [Regexp.run]

theorem run_plus (a : Regexp) (t : Thread) :
    (Regexp.plus a).run t = plusLoop a.run (t.rest.length + 1) t := by
  simp [Regexp.run]

theorem run_capture (i : Nat) (a : Regexp) (t : Thread) :
    (Regexp.capture i a).run t =
      (a.run t).map fun u => { u with caps := (i, consumed t.rest u.rest) :: u.caps } := by
  simp [Regexp.run]

theorem mem_run_reHosts (t u : Thread) :
    u ∈ reHosts.run t ↔
      ∃ seg rest, seg ≠ [] ∧ (∀ c ∈ seg, c ∉ ['#', '\n']) ∧
        t.rest = seg ++ ' ' :: (hostsMarker ++ rest) ∧
        u = ⟨hostsMarker.reverse ++ ' ' :: (seg.reverse ++ t.before), rest,
              (2, seg) :: t.caps⟩ := by
  simp only [reHosts, run_cat, run_capture, run_plus, List.mem_flatMap, List.mem_map,
    mem_plusLoop_notChars, mem_run_lit, mem_run_str]
  constructor
  · rintro ⟨m, ⟨v, ⟨seg, r, hne, -, hall, hr, rfl⟩, rfl⟩, w, ⟨r1, hr1, rfl⟩, r2, hr2, rfl⟩
    simp only at hr1 hr2
    subst hr1
    subst hr2
    refine ⟨seg, r2, hne, hall, hr, ?_⟩
    simp [hr, consumed_append]
  · rintro ⟨seg, rest, hne, hall, hr, rfl⟩
    refine ⟨⟨seg.reverse ++ t.before, ' ' :: (hostsMarker ++ rest), (2, seg) :: t.caps⟩,
      ⟨⟨seg.reverse ++ t.before, ' ' :: (hostsMarker ++ rest), t.caps⟩,
        ⟨seg, _, hne, ?_, hall, hr, rfl⟩, ?_⟩,
      ⟨' ' :: (seg.reverse ++ t.before), hostsMarker ++ rest, (2, seg) :: t.caps⟩,
      ⟨_, rfl, rfl⟩, _, rfl, rfl⟩
    · rw [hr]; simp; omega
    · simp [hr, consumed_append]

theorem mem_run_beginLine (t u : Thread) :
    u ∈ Regexp.beginLine.run t ↔ (t.before = [] ∨ t.before.head? = some '\n') ∧ u = t := by
  rcases t with ⟨tb, tr, tc⟩
  cases tb with
  | nil => simp [Regexp.run]
  | cons c cs =>
    by_cases hc : c = '\n'
    · simp [Regexp.run, hc]
    · simp [Regexp.run, hc]

theorem blockRegexp_eq :
    blockRegexp =
      .cat .beginLine
        (.cat (.quest (.capture 1 (.str "# ".toList)))
          (.cat (.str blockIP) (.cat (.lit ' ') reHosts))) := rfl

theorem mem_run_blockRegexp (before s : List Char) (u : Thread) :
    u ∈ blockRegexp.run ⟨before, s, []⟩ ↔
      (before = [] ∨ before.head? = some '\n') ∧
      ∃ commented seg rest, seg ≠ [] ∧ (∀ c ∈ seg, c ∉ ['#', '\n']) ∧
        s = lineText commented seg ++ rest ∧
        u = ⟨(lineText commented seg).reverse ++ before, rest, lineCaps commented seg⟩ := by
  simp only [blockRegexp_eq, run_cat, run_quest, run_capture, List.mem_flatMap, List.mem_map,
    List.mem_append, List.mem_singleton, mem_run_beginLine, mem_run_lit, mem_run_str,
    mem_run_reHosts]
  constructor
  · rintro ⟨m0, ⟨hbol, rfl⟩, m1, hm1, m2, ⟨r2, hr2, rfl⟩, m3, ⟨r3, hr3, rfl⟩, seg, rest, hne,
      hall, hr, rfl⟩
    refine ⟨hbol, ?_⟩
    simp only at hr3 hr
    subst hr
    subst hr3
    rcases hm1 with ⟨v, ⟨r1, hr1, rfl⟩, rfl⟩ | rfl
    · simp only at hr1 hr2
      subst hr2
      subst hr1
      refine ⟨true, seg, rest, hne, hall, by simp [lineText], ?_⟩
      have hc := consumed_append "# ".toList
        (blockIP ++ ' ' :: (seg ++ ' ' :: (hostsMarker ++ rest)))
      simp [lineText, lineCaps]
      exact hc
    · simp only at hr2
      subst hr2
      refine ⟨false, seg, rest, hne, hall, by simp [lineText], ?_⟩
      simp [lineText, lineCaps]
  · rintro ⟨hbol, commented, seg, rest, hne, hall, rfl, rfl⟩
    refine ⟨_, ⟨hbol, rfl⟩, ?_⟩
    have htail : ∀ (b : List Char) (cp : List (Nat × List Char)),
        ∃ a : Thread, (∃ r, (⟨b, blockIP ++ ' ' :: (seg ++ ' ' :: (hostsMarker ++ rest)), cp⟩ :
              Thread).rest = blockIP ++ r ∧
            a = ⟨blockIP.reverse ++ b, r, cp⟩) ∧
          ∃ a2 : Thread, (∃ r, a.rest = ' ' :: r ∧ a2 = ⟨' ' :: a.before, r, a.caps⟩) ∧
            ∃ seg2 rest2, seg2 ≠ [] ∧ (∀ c ∈ seg2, c ∉ ['#', '\n']) ∧
              a2.rest = seg2 ++ ' ' :: (hostsMarker ++ rest2) ∧
              (⟨hostsMarker.reverse ++ ' ' :: (seg.reverse ++ ' ' :: (blockIP.reverse ++ b)),
                  rest, (2, seg) :: cp⟩ : Thread) =
                ⟨hostsMarker.reverse ++ ' ' :: (seg2.reverse ++ a2.before), rest2,
                  (2, seg2) :: a2.caps⟩ := by
      intro b cp
      exact ⟨_, ⟨_, rfl, rfl⟩, _, ⟨_, rfl, rfl⟩, seg, rest, hne, hall, rfl, rfl⟩
    cases commented with
    | true =>
      refine ⟨⟨"# ".toList.reverse ++ before,
          blockIP ++ ' ' :: (seg ++ ' ' :: (hostsMarker ++ rest)), [(1, "# ".toList)]⟩, ?_, ?_⟩
      · left
        refine ⟨⟨"# ".toList.reverse ++ before,
          blockIP ++ ' ' :: (seg ++ ' ' :: (hostsMarker ++ rest)), []⟩, ⟨_, ?_, rfl⟩, ?_⟩
        · simp [lineText]
        · have hc : consumed (lineText true seg ++ rest)
              (blockIP ++ ' ' :: (seg ++ ' ' :: (hostsMarker ++ rest))) = "# ".toList := by
            have := consumed_append "# ".toList
              (blockIP ++ ' ' :: (seg ++ ' ' :: (hostsMarker ++ rest)))
            simpa [lineText] using this
          simp only [hc]
      · have := htail ("# ".toList.reverse ++ before) [(1, "# ".toList)]
        simpa [lineText, lineCaps] using this
    | false =>
      refine ⟨_, Or.inr rfl, ?_⟩
      have := htail before []
      simpa [lineText, lineCaps] using this

theorem first_occurrence {x : Char} {a a2 b b2 : List Char}
    (ha : ∀ c ∈ a, c ≠ x) (ha2 : ∀ c ∈ a2, c ≠ x) (h : a ++ x :: b = a2 ++ x :: b2) :
    a = a2 ∧ b = b2 := by
  induction a generalizing a2 with
  | nil =>
    cases a2 with
    | nil => simpa using h
    | cons y ys =>
      simp at h
      exact absurd h.1.symm (ha2 y (List.mem_cons_self _ _))
  | cons y ys ih =>
    cases a2 with
    | nil =>
      simp at h
      exact absurd h.1 (ha y (List.mem_cons_self _ _))
    | cons z zs =>
      simp only [List.cons_append, List.cons.injEq] at h
      obtain ⟨h1, h2⟩ := ih (fun c hc => ha c (List.mem_cons_of_mem _ hc))
        (fun c hc => ha2 c (List.mem_cons_of_mem _ hc)) h.2
      exact ⟨by rw [h.1, h1], h2⟩

theorem hostsMarker_eq_cons : ∃ mt, hostsMarker = '#' :: mt := ⟨_, rfl⟩

theorem lineText_unique {c c2 : Bool} {seg seg2 rest rest2 : List Char}
    (hs : ∀ x ∈ seg, x ∉ ['#', '\n']) (hs2 : ∀ x ∈ seg2, x ∉ ['#', '\n'])
    (h : lineText c seg ++ rest = lineText c2 seg2 ++ rest2) :
    c = c2 ∧ seg = seg2 ∧ rest = rest2 := by
  obtain ⟨mt, hmt⟩ := hostsMarker_eq_cons
  have hc : c = c2 := by
    cases c <;> cases c2 <;> first | rfl | (simp [lineText, blockIP] at h)
  subst hc
  have h2 : (seg ++ [' ']) ++ '#' :: (mt ++ rest) = (seg2 ++ [' ']) ++ '#' :: (mt ++ rest2) := by
    simp only [lineText, List.append_assoc, List.append_cancel_left_eq, List.cons_append,
      List.cons.injEq, true_and, hmt] at h
    simpa using h
  have hnot : ∀ sg : List Char, (∀ x ∈ sg, x ∉ ['#', '\n']) → ∀ x ∈ sg ++ [' '], x ≠ '#' := by
    intro sg hsg x hx
    rcases List.mem_append.1 hx with hx | hx
    · intro hxe
      exact hsg x hx (by simp [hxe])
    · simp at hx
      subst hx
      decide
  obtain ⟨h3, h4⟩ := first_occurrence (hnot seg hs) (hnot seg2 hs2) h2
  exact ⟨rfl, List.append_cancel_right h3, List.append_cancel_left h4⟩

theorem longest_run_lineText {before : List Char} (c : Bool) {seg : List Char}
    (rest : List Char) (hbol : before = [] ∨ before.head? = some '\n') (hne : seg ≠ [])
    (hs : ∀ x ∈ seg, x ∉ ['#', '\n']) :
    longest (blockRegexp.run ⟨before, lineText c seg ++ rest, []⟩) =
      some ⟨(lineText c seg).reverse ++ before, rest, lineCaps c seg⟩ := by
  apply longest_of_all_eq
  · intro hnil
    have hm := (mem_run_blockRegexp before (lineText c seg ++ rest)
      ⟨(lineText c seg).reverse ++ before, rest, lineCaps c seg⟩).2
      ⟨hbol, c, seg, rest, hne, hs, rfl, rfl⟩
    rw [hnil] at hm
    exact absurd hm (List.not_mem_nil _)
  · intro x hx
    obtain ⟨-, c2, seg2, rest2, -, hs2, heq, rfl⟩ := (mem_run_blockRegexp _ _ _).1 hx
    obtain ⟨rfl, rfl, rfl⟩ := lineText_unique hs hs2 heq
    rfl

theorem longest_run_some {before s : List Char} {u : Thread}
    (h : longest (blockRegexp.run ⟨before, s, []⟩) = some u) :
    (before = [] ∨ before.head? = some '\n') ∧
      ∃ c seg rest, seg ≠ [] ∧ (∀ x ∈ seg, x ∉ ['#', '\n']) ∧ s = lineText c seg ++ rest ∧
        u = ⟨(lineText c seg).reverse ++ before, rest, lineCaps c seg⟩ :=
  (mem_run_blockRegexp _ _ _).1 (longest_mem h)

theorem findMatch_of_longest {re : Regexp} {before s : List Char} {t : Thread}
    (h : longest (re.run ⟨before, s, []⟩) = some t) : findMatch re before s = some (s, t) := by
  cases s with
  | nil => simp [findMatch, h]
  | cons x xs => simp [findMatch, h]

theorem findMatch_some {re : Regexp} {before s start : List Char} {t : Thread}
    (h : findMatch re before s = some (start, t)) :
    ∃ skipped, s = skipped ++ start ∧
      longest (re.run ⟨skipped.reverse ++ before, start, []⟩) = some t := by
  induction s generalizing before with
  | nil =>
    simp only [findMatch, Option.map_eq_some'] at h
    obtain ⟨u, hu, he⟩ := h
    simp only [Prod.mk.injEq] at he
    obtain ⟨rfl, rfl⟩ := he
    exact ⟨[], rfl, hu⟩
  | cons x xs ih =>
    simp only [findMatch] at h
    cases hl : longest (re.run ⟨before, x :: xs, []⟩) with
    | some u =>
      rw [hl] at h
      simp only [Option.some.injEq, Prod.mk.injEq] at h
      obtain ⟨rfl, rfl⟩ := h
      exact ⟨[], rfl, hl⟩
    | none =>
      rw [hl] at h
      obtain ⟨skipped, hs, hlong⟩ := ih h
      exact ⟨x :: skipped, by simp [hs], by simpa using hlong⟩

theorem findMatch_none_of_no_lf {before s : List Char} {b : Char} (hb : before.head? = some b)
    (hbn : b ≠ '\n') (hs : '\n' ∉ s) : findMatch blockRegexp before s = none := by
  have hnone : ∀ (bf sx : List Char) (y : Char), bf.head? = some y → y ≠ '\n' →
      longest (blockRegexp.run ⟨bf, sx, []⟩) = none := by
    intro bf sx y hy hyn
    cases hl : longest (blockRegexp.run ⟨bf, sx, []⟩) with
    | none => rfl
    | some u =>
      obtain ⟨hbol, -⟩ := longest_run_some hl
      rcases hbol with hbol | hbol
      · simp [hbol] at hy
      · rw [hy] at hbol
        exact absurd (Option.some.inj hbol) hyn
  induction s generalizing before b with
  | nil => simp [findMatch, hnone before [] b hb hbn]
  | cons x xs ih =>
    simp only [findMatch, hnone before (x :: xs) b hb hbn]
    have hx : x ≠ '\n' := fun hxe => hs (by simp [hxe])
    exact ih (b := x) rfl hx (fun hm => hs (List.mem_cons_of_mem _ hm))

/-! ## Lemmas on `Split`, `Join` and `Contains` -/

theorem Split_ne_nil (s : List Char) (sep : Char) : Split s sep ≠ [] := by
  induction s with
  | nil => simp [Split]
  | cons c cs ih =>
    simp only [Split]
    by_cases hc : c = sep
    · simp [hc]
    · simp only [hc, if_false]
      cases h : Split cs sep with
      | nil => simp
      | cons p ps => simp

theorem Join_cons_head (c : Char) (p : List Char) (ps : List (List Char)) (sep : List Char) :
    Join ((c :: p) :: ps) sep = c :: Join (p :: ps) sep := by
  cases ps with
  | nil => simp [Join]
  | cons q qs => simp [Join]

theorem Join_Split (s : List Char) (sep : Char) : Join (Split s sep) [sep] = s := by
  induction s with
  | nil => simp [Split, Join]
  | cons c cs ih =>
    simp only [Split]
    by_cases hc : c = sep
    · simp only [hc, if_true]
      cases h : Split cs sep with
      | nil => exact absurd h (Split_ne_nil cs sep)
      | cons p ps =>
        rw [h] at ih
        simp [Join, ih]
    · simp only [hc, if_false]
      cases h : Split cs sep with
      | nil => exact absurd h (Split_ne_nil cs sep)
      | cons p ps =>
        rw [h] at ih
        simp [Join_cons_head, ih]

theorem Split_of_not_mem {a : List Char} {sep : Char} (h : sep ∉ a) : Split a sep = [a] := by
  induction a with
  | nil => simp [Split]
  | cons c cs ih =>
    have hc : c ≠ sep := fun hce => h (by simp [hce])
    have hcs : sep ∉ cs := fun hm => h (List.mem_cons_of_mem _ hm)
    simp [Split, hc, ih hcs]

theorem Split_append_sep {a : List Char} {sep : Char} (h : sep ∉ a) (t : List Char) :
    Split (a ++ sep :: t) sep = a :: Split t sep := by
  induction a with
  | nil => simp [Split]
  | cons c cs ih =>
    have hc : c ≠ sep := fun hce => h (by simp [hce])
    have hcs : sep ∉ cs := fun hm => h (List.mem_cons_of_mem _ hm)
    simp [Split, hc, ih hcs]

theorem Split_Join {hosts : List (List Char)} {sep : Char} (hne : hosts ≠ [])
    (h : ∀ a ∈ hosts, sep ∉ a) : Split (Join hosts [sep]) sep = hosts := by
  induction hosts with
  | nil => exact absurd rfl hne
  | cons a rest ih =>
    cases rest with
    | nil => simpa [Join] using Split_of_not_mem (h a (List.mem_cons_self _ _))
    | cons b more =>
      have ha : sep ∉ a := h a (List.mem_cons_self _ _)
      have := ih (by simp) (fun x hx => h x (List.mem_cons_of_mem _ hx))
      simp only [Join, List.append_assoc, List.singleton_append]
      rw [Split_append_sep ha, this]

theorem HasPrefix_iff (s p : List Char) : HasPrefix s p = true ↔ p <+: s := by
  induction p generalizing s with
  | nil => simp [HasPrefix]
  | cons y ys ih =>
    cases s with
    | nil => simp [HasPrefix]
    | cons x xs =>
      simp only [HasPrefix, Bool.and_eq_true, beq_iff_eq, ih]
      constructor
      · rintro ⟨rfl, ⟨r, rfl⟩⟩
        exact ⟨r, rfl⟩
      · rintro ⟨r, hr⟩
        simp only [List.cons_append, List.cons.injEq] at hr
        exact ⟨hr.1.symm, ⟨r, hr.2⟩⟩

theorem Contains_iff (s sub : List Char) : Contains s sub = true ↔ sub <:+: s := by
  induction s with
  | nil =>
    simp only [Contains, List.isEmpty_iff]
    constructor
    · rintro rfl
      exact ⟨[], [], rfl⟩
    · rintro ⟨a, b, hab⟩
      simp at hab
      exact hab.2.1
  | cons x xs ih =>
    simp only [Contains, Bool.or_eq_true, HasPrefix_iff, ih]
    constructor
    · rintro (⟨r, hr⟩ | ⟨a, b, hab⟩)
      · exact ⟨[], r, by simpa using hr⟩
      · exact ⟨x :: a, b, by simp [← hab]⟩
    · rintro ⟨a, b, hab⟩
      cases a with
      | nil => left; exact ⟨b, by simpa using hab⟩
      | cons y ys =>
        right
        simp only [List.cons_append, List.cons.injEq] at hab
        exact ⟨ys, b, by simpa using hab.2⟩

/-! ## Lemmas on the codec -/

theorem ManagedHost_lineText (c : Bool) {seg : List Char} (rest : List Char) (hne : seg ≠ [])
    (hs : ∀ x ∈ seg, x ∉ ['#', '\n']) :
    HostLine.ManagedHost (lineText c seg ++ rest) = some ⟨Split seg ' ', !c⟩ := by
  have hf := findMatch_of_longest (longest_run_lineText c rest (Or.inl rfl) hne hs)
  simp only [HostLine.ManagedHost, FindStringSubmatch, hf, consumed_append]
  cases c <;> simp [List.range, List.range.loop, capText, lineCaps]

theorem ManagedHost_some {h : HostLine} {mh : Hosts.ManagedHost}
    (hm : HostLine.ManagedHost h = some mh) :
    ∃ skipped c seg rest, seg ≠ [] ∧ (∀ x ∈ seg, x ∉ ['#', '\n']) ∧
      h = skipped ++ (lineText c seg ++ rest) ∧
      (skipped = [] ∨ skipped.getLast? = some '\n') ∧ mh = ⟨Split seg ' ', !c⟩ := by
  simp only [HostLine.ManagedHost, FindStringSubmatch] at hm
  cases hf : findMatch blockRegexp [] h with
  | none => simp [hf] at hm
  | some res =>
    obtain ⟨start, t⟩ := res
    obtain ⟨skipped, hsk, hlong⟩ := findMatch_some hf
    obtain ⟨hbol, c, seg, rest, hne, hs, rfl, rfl⟩ := longest_run_some hlong
    refine ⟨skipped, c, seg, rest, hne, hs, hsk, ?_, ?_⟩
    · rcases hbol with hbol | hbol
      · left; simpa using hbol
      · right
        simp only [List.append_nil, List.head?_reverse] at hbol
        exact hbol
    · simp only [hf, consumed_append] at hm
      cases c <;> simp [List.range, List.range.loop, capText, lineCaps] at hm <;> simp [← hm]

theorem HostLine_eq_lineText (mh : Hosts.ManagedHost) :
    ManagedHost.HostLine mh = lineText (!mh.Blocked) (Join mh.Hosts [' ']) := by
  cases hb : mh.Blocked <;> simp [ManagedHost.HostLine, lineText, hb]

theorem mem_Join {hosts : List (List Char)} {sep : List Char} {x : Char}
    (h : x ∈ Join hosts sep) : x ∈ sep ∨ ∃ a ∈ hosts, x ∈ a := by
  induction hosts with
  | nil => simp [Join] at h
  | cons a rest ih =>
    cases rest with
    | nil => exact Or.inr ⟨a, by simp, by simpa [Join] using h⟩
    | cons b more =>
      simp only [Join, List.append_assoc, List.mem_append] at h
      rcases h with h | h | h
      · exact Or.inr ⟨a, by simp, h⟩
      · exact Or.inl h
      · rcases ih h with h2 | ⟨y, hy, hxy⟩
        · exact Or.inl h2
        · exact Or.inr ⟨y, List.mem_cons_of_mem _ hy, hxy⟩

theorem Join_ne_nil {hosts : List (List Char)} (sep : Char) (h1 : hosts ≠ [])
    (h2 : hosts ≠ [[]]) : Join hosts [sep] ≠ [] := by
  cases hosts with
  | nil => exact absurd rfl h1
  | cons a rest =>
    cases rest with
    | nil =>
      simp only [Join]
      intro ha
      exact h2 (by rw [ha])
    | cons b more => simp [Join]

theorem Split_eq_splitOn (s : List Char) (sep : Char) : Split s sep = s.splitOn sep := by
  induction s with
  | nil => simp [Split, List.splitOn]
  | cons c cs ih =>
    simp only [Split, List.splitOn, List.splitOnP_cons, beq_iff_eq] at ih ⊢
    by_cases hc : c = sep
    · simp [hc, ih]
    · simp only [hc, if_false, ← ih]
      cases h : Split cs sep with
      | nil => exact absurd h (Split_ne_nil cs sep)
      | cons p ps => simp [List.modifyHead]

theorem decode_encode_decoded {l : HostLine} {mh : Hosts.ManagedHost}
    (h : HostLine.ManagedHost l = some mh) (b : Bool) :
    HostLine.ManagedHost (ManagedHost.HostLine ⟨mh.Hosts, b⟩) = some ⟨mh.Hosts, b⟩ := by
  obtain ⟨skipped, c, seg, rest, hne, hs, -, -, rfl⟩ := ManagedHost_some h
  have := ManagedHost_lineText (!b) [] hne hs
  simpa [HostLine_eq_lineText, Join_Split] using this

/-! ## The first marker of a managed line -/

theorem split_at_first {x : Char} {a : List Char} (h : x ∈ a) :
    ∃ a1 a2, a = a1 ++ x :: a2 ∧ ∀ c ∈ a1, c ≠ x := by
  induction a with
  | nil => simp at h
  | cons y ys ih =>
    by_cases hy : y = x
    · exact ⟨[], ys, by simp [hy], by simp⟩
    · rcases List.mem_cons.1 h with hxy | hxs
      · exact absurd hxy.symm hy
      · obtain ⟨a1, a2, ha, hno⟩ := ih hxs
        refine ⟨y :: a1, a2, by simp [ha], ?_⟩
        intro c hc
        rcases List.mem_cons.1 hc with rfl | hc
        · exact hy
        · exact hno c hc

theorem hostsMarker_tail : ∃ mt, hostsMarker = '#' :: mt ∧ '#' ∉ mt ∧ mt ≠ [] ∧
    hostsMarker.dropLast = '#' :: mt.dropLast :=
  ⟨_, rfl, by decide, by decide, by decide⟩

theorem no_marker_before {body : List Char} (hb : '#' ∉ body) :
    ¬ hostsMarker <:+: body ++ hostsMarker.dropLast := by
  obtain ⟨mt, hm, hmt, hne, hdl⟩ := hostsMarker_tail
  rintro ⟨a, b, hab⟩
  rw [hm] at hab hdl
  rw [hdl] at hab
  have hmd : ∀ c ∈ mt.dropLast, c ≠ '#' := fun c hc hce =>
    hmt (hce ▸ List.mem_of_mem_dropLast hc)
  have hbody : ∀ c ∈ body, c ≠ '#' := fun c hc hce => hb (hce ▸ hc)
  have hab2 : a ++ '#' :: (mt ++ b) = body ++ '#' :: mt.dropLast := by
    simpa using hab
  by_cases ha : '#' ∈ a
  · obtain ⟨a1, a2, rfl, hno⟩ := split_at_first ha
    have hab3 : a1 ++ '#' :: (a2 ++ '#' :: (mt ++ b)) = body ++ '#' :: mt.dropLast := by
      simpa using hab2
    obtain ⟨-, h2⟩ := first_occurrence hno hbody hab3
    exact hmd '#' (by rw [← h2]; simp) rfl
  · have hno : ∀ c ∈ a, c ≠ '#' := fun c hc hce => ha (hce ▸ hc)
    obtain ⟨-, h2⟩ := first_occurrence hno hbody hab2
    have hlen := congrArg List.length h2
    simp only [List.length_append, List.length_dropLast] at hlen
    have : 0 < mt.length := List.length_pos.2 hne
    omega

theorem no_marker_lineText (c : Bool) {seg : List Char} (hs : ∀ x ∈ seg, x ∉ ['#', '\n']) :
    ¬ hostsMarker <:+: (lineText c seg).dropLast := by
  have hbody : '#' ∉ blockIP ++ ' ' :: (seg ++ [' ']) := by
    intro hm
    simp only [List.mem_append, List.mem_cons, List.mem_singleton, List.not_mem_nil,
      or_false] at hm
    rcases hm with hm | hm | hm | hm
    · revert hm; decide
    · revert hm; decide
    · exact hs _ hm (by simp)
    · revert hm; decide
  have hne : hostsMarker ≠ [] := by decide
  have hdrop : ∀ pre : List Char, (pre ++ hostsMarker).dropLast = pre ++ hostsMarker.dropLast :=
    fun pre => List.dropLast_append_of_ne_nil _ hne
  cases c with
  | false =>
    have : lineText false seg = (blockIP ++ ' ' :: (seg ++ [' '])) ++ hostsMarker := by
      simp [lineText]
    rw [this, hdrop]
    exact no_marker_before hbody
  | true =>
    have : lineText true seg = ('#' :: ' ' :: (blockIP ++ ' ' :: (seg ++ [' ']))) ++ hostsMarker := by
      simp [lineText]
    rw [this, hdrop]
    rintro ⟨a, b, hab⟩
    cases a with
    | nil =>
      simp only [List.nil_append, List.cons_append] at hab
      revert hab
      simp [hostsMarker, blockIP]
    | cons y ys =>
      have hbody2 : '#' ∉ ' ' :: (blockIP ++ ' ' :: (seg ++ [' '])) := by
        intro hm
        rcases List.mem_cons.1 hm with hm | hm
        · revert hm; decide
        · exact hbody hm
      apply no_marker_before hbody2
      simp only [List.cons_append, List.cons.injEq] at hab
      exact ⟨ys, b, by simpa using hab.2⟩

theorem lineText_eq (c : Bool) (seg : List Char) :
    lineText c seg =
      (if c then "# ".toList else []) ++ blockIP ++ " ".toList ++ seg ++ " ".toList ++
        hostsMarker := by
  cases c <;> simp [lineText]

theorem hostsMarker_suffix_lineText (c : Bool) (seg : List Char) :
    hostsMarker <:+ lineText c seg :=
  ⟨(if c then "# ".toList else []) ++ (blockIP ++ ' ' :: (seg ++ [' '])), by
    cases c <;> simp [lineText]⟩

theorem ends_at_first_marker_iff {e rest : List Char} (hsuf : hostsMarker <:+ e)
    (hfirst : ¬ hostsMarker <:+: e.dropLast) :
    e = e ++ rest ↔ hostsMarker <:+ e ++ rest ∧ ¬ hostsMarker <:+: (e ++ rest).dropLast := by
  constructor
  · intro heq
    rw [← heq]
    exact ⟨hsuf, hfirst⟩
  · rintro ⟨-, hno⟩
    by_cases hr : rest = []
    · simp [hr]
    · exfalso
      apply hno
      rw [List.dropLast_append_of_ne_nil _ hr]
      obtain ⟨p, hp⟩ := hsuf
      exact ⟨p, rest.dropLast, by rw [hp]⟩

/-! ## The codec round trips -/

/-- C1, counterexample: the line `127.0.0.1 a <marker> trailing` is accepted by
Decode, and re-encoding the decoded record gives a different line (the text
after the marker is gone). -/
theorem encode_decode_counterexample :
    HostLine.ManagedHost
        "127.0.0.1 a # do not edit; managed by github.com/felixge/hosts trailing".toList =
      some ⟨["a".toList], true⟩ ∧
    ManagedHost.HostLine ⟨["a".toList], true⟩ ≠
      "127.0.0.1 a # do not edit; managed by github.com/felixge/hosts trailing".toList := by
  decide

/-- C1, as amended: for every raw line that Decode accepts, re-encoding the
decoded record gives back the text that the pattern matched: the optional
`"# "`, the address, a space, the hostnames segment (not empty, without `#`), a
space and the marker. The line is that text with something before and
something after it; nothing is before it when the line has no line feed. The
re-encoded text equals the line exactly when nothing is before or after it,
and on a line without a line feed exactly when the line ends at its first
marker: the marker ends the line and does not occur earlier in it. -/
theorem encode_decode_matched (line : HostLine) (mh : Hosts.ManagedHost)
    (h : HostLine.ManagedHost line = some mh) :
    ∃ (before after : List Char) (commented : Bool) (seg : List Char),
      seg ≠ [] ∧ '#' ∉ seg ∧
      ManagedHost.HostLine mh =
        (if commented then "# ".toList else []) ++ blockIP ++ " ".toList ++ seg ++ " ".toList ++
          hostsMarker ∧
      line = before ++ ManagedHost.HostLine mh ++ after ∧
      ('\n' ∉ line → before = []) ∧
      (ManagedHost.HostLine mh = line ↔ before = [] ∧ after = []) ∧
      ('\n' ∉ line →
        (ManagedHost.HostLine mh = line ↔
          hostsMarker <:+ line ∧ ¬ hostsMarker <:+: line.dropLast)) := by
  obtain ⟨skipped, c, seg, rest, hne, hs, rfl, hsk, rfl⟩ := ManagedHost_some h
  have he : ManagedHost.HostLine ⟨Split seg ' ', !c⟩ = lineText c seg := by
    simp [HostLine_eq_lineText, Join_Split]
  have hbefore : '\n' ∉ skipped ++ (lineText c seg ++ rest) → skipped = [] := by
    intro hlf
    rcases hsk with hsk | hsk
    · exact hsk
    · exact absurd (List.mem_append_left _ (List.mem_of_getLast?_eq_some hsk)) hlf
  refine ⟨skipped, rest, c, seg, hne, fun hm => hs _ hm (by simp), ?_, by simp [he], hbefore,
    ?_, ?_⟩
  · rw [he, lineText_eq]
  · rw [he]
    constructor
    · intro heq
      have hlen := congrArg List.length heq
      simp only [List.length_append] at hlen
      exact ⟨List.length_eq_zero.1 (by omega), List.length_eq_zero.1 (by omega)⟩
    · rintro ⟨rfl, rfl⟩
      simp
  · intro hlf
    have hsk0 := hbefore hlf
    subst hsk0
    rw [he, List.nil_append]
    exact ends_at_first_marker_iff (hostsMarker_suffix_lineText c seg) (no_marker_lineText c hs)

/-- Witness of `encode_decode_matched` on the line of the counterexample. -/
theorem encode_decode_matched_witness :
    HostLine.ManagedHost
        "127.0.0.1 a # do not edit; managed by github.com/felixge/hosts trailing".toList =
      some ⟨["a".toList], true⟩ ∧
    ∃ (before after : List Char) (commented : Bool) (seg : List Char),
      seg ≠ [] ∧ '#' ∉ seg ∧
      ManagedHost.HostLine ⟨["a".toList], true⟩ =
        (if commented then "# ".toList else []) ++ blockIP ++ " ".toList ++ seg ++ " ".toList ++
          hostsMarker ∧
      "127.0.0.1 a # do not edit; managed by github.com/felixge/hosts trailing".toList =
        before ++ ManagedHost.HostLine ⟨["a".toList], true⟩ ++ after ∧
      ('\n' ∉ "127.0.0.1 a # do not edit; managed by github.com/felixge/hosts trailing".toList →
        before = []) ∧
      (ManagedHost.HostLine ⟨["a".toList], true⟩ =
          "127.0.0.1 a # do not edit; managed by github.com/felixge/hosts trailing".toList ↔
        before = [] ∧ after = []) ∧
      ('\n' ∉ "127.0.0.1 a # do not edit; managed by github.com/felixge/hosts trailing".toList →
        (ManagedHost.HostLine ⟨["a".toList], true⟩ =
            "127.0.0.1 a # do not edit; managed by github.com/felixge/hosts trailing".toList ↔
          hostsMarker <:+
              "127.0.0.1 a # do not edit; managed by github.com/felixge/hosts trailing".toList ∧
            ¬ hostsMarker <:+:
              List.dropLast
                "127.0.0.1 a # do not edit; managed by github.com/felixge/hosts trailing".toList)) :=
  ⟨by decide, encode_decode_matched _ _ (by decide)⟩

/-- C2, counterexample: the records with hosts `["a#b"]`, `[]` and `["a\nb"]`
have hostnames without a space and without the marker text, yet the line that
Encode produces for them is not decoded back to the record. -/
theorem decode_encode_counterexample :
    ((∀ a ∈ ["a#b".toList], ' ' ∉ a ∧ Contains a hostsMarker = false) ∧
      HostLine.ManagedHost (ManagedHost.HostLine ⟨["a#b".toList], true⟩) ≠
        some ⟨["a#b".toList], true⟩) ∧
    ((∀ a ∈ ([] : List (List Char)), ' ' ∉ a ∧ Contains a hostsMarker = false) ∧
      HostLine.ManagedHost (ManagedHost.HostLine ⟨[], true⟩) ≠ some ⟨[], true⟩) ∧
    ((∀ a ∈ ["a\nb".toList], ' ' ∉ a ∧ Contains a hostsMarker = false) ∧
      HostLine.ManagedHost (ManagedHost.HostLine ⟨["a\nb".toList], true⟩) ≠
        some ⟨["a\nb".toList], true⟩) := by
  decide

/-- C2, as amended: for every record (any Blocked flag) whose Hosts list is
not empty and not the single empty hostname, and whose hostnames contain no
space, no `#` and no line feed, decoding the encoded line returns the record. -/
theorem decode_encode (r : Hosts.ManagedHost) (hne : r.Hosts ≠ []) (hne2 : r.Hosts ≠ [[]])
    (h : ∀ a ∈ r.Hosts, ' ' ∉ a ∧ '#' ∉ a ∧ '\n' ∉ a) :
    HostLine.ManagedHost (ManagedHost.HostLine r) = some r := by
  have hs : ∀ x ∈ Join r.Hosts [' '], x ∉ ['#', '\n'] := by
    intro x hx hmem
    rcases mem_Join hx with hsp | ⟨a, ha, hxa⟩
    · simp only [List.mem_singleton] at hsp
      subst hsp
      revert hmem
      decide
    · simp only [List.mem_cons, List.mem_singleton, List.not_mem_nil, or_false] at hmem
      rcases hmem with rfl | rfl
      · exact (h a ha).2.1 hxa
      · exact (h a ha).2.2 hxa
  have := ManagedHost_lineText (!r.Blocked) [] (Join_ne_nil ' ' hne hne2) hs
  rw [List.append_nil, ← HostLine_eq_lineText, Split_Join hne (fun a ha => (h a ha).1)] at this
  simpa using this

/-- Witness of `decode_encode` on the record with hosts `a.com`, `b.com`, unblocked. -/
theorem decode_encode_witness :
    HostLine.ManagedHost (ManagedHost.HostLine ⟨["a.com".toList, "b.com".toList], false⟩) =
      some ⟨["a.com".toList, "b.com".toList], false⟩ :=
  decode_encode ⟨["a.com".toList, "b.com".toList], false⟩ (by decide) (by decide) (by decide)

/-- C10: on every line without a line feed Decode equals its reference
definition: it returns a record exactly when the line is an optional `"# "`,
the address, a space, a non-empty segment without `#`, a space and the marker
(then anything), with Blocked true iff the `"# "` is absent and Hosts the
segment split on every single space; otherwise it returns nothing. -/
theorem ManagedHost_eq_DecodeSpec (line : HostLine) (hlf : '\n' ∉ line) :
    (∀ r, HostLine.ManagedHost line = some r ↔ DecodeSpec line r) ∧
    (HostLine.ManagedHost line = none ↔ ¬ ∃ r, DecodeSpec line r) := by
  have hiff : ∀ r, HostLine.ManagedHost line = some r ↔ DecodeSpec line r := by
    intro r
    constructor
    · intro h
      obtain ⟨skipped, c, seg, rest, hne, hs, hl, hsk, rfl⟩ := ManagedHost_some h
      have hsk2 : skipped = [] := by
        rcases hsk with hsk | hsk
        · exact hsk
        · exact absurd (hl ▸ List.mem_append_left _ (List.mem_of_getLast?_eq_some hsk)) hlf
      subst hsk2
      refine ⟨c, seg, rest, hne, fun hm => hs _ hm (by simp), ?_, by simp,
        Split_eq_splitOn seg ' '⟩
      rw [hl]
      cases c <;> simp [lineText, blockIP, hostsMarker]
    · rintro ⟨c, seg, rest, hne, hs, hl, hb, hh⟩
      have hline : line = lineText c seg ++ rest := by
        rw [hl]
        cases c <;> simp [lineText, blockIP, hostsMarker]
      have hgood : ∀ x ∈ seg, x ∉ ['#', '\n'] := by
        intro x hx hmem
        simp only [List.mem_cons, List.mem_singleton, List.not_mem_nil, or_false] at hmem
        rcases hmem with rfl | rfl
        · exact hs hx
        · apply hlf
          rw [hline]
          cases c <;> simp [lineText, hx]
      rw [hline, ManagedHost_lineText c rest hne hgood]
      rcases r with ⟨rh, rb⟩
      simp only at hb hh
      simp only [Option.some.injEq, ManagedHost.mk.injEq]
      refine ⟨by rw [hh, Split_eq_splitOn], ?_⟩
      cases c <;> cases rb <;> simp_all
  refine ⟨hiff, ?_⟩
  constructor
  · rintro hnone ⟨r, hr⟩
    rw [(hiff r).2 hr] at hnone
    exact absurd hnone (by simp)
  · intro hno
    cases hm : HostLine.ManagedHost line with
    | none => rfl
    | some r => exact absurd ⟨r, (hiff r).1 hm⟩ hno

/-- Witness of `ManagedHost_eq_DecodeSpec` on a line with two adjacent spaces
in the hostnames segment: the hosts are `a`, the empty string and `b`. -/
theorem ManagedHost_eq_DecodeSpec_witness :
    HostLine.ManagedHost
        "127.0.0.1 a  b # do not edit; managed by github.com/felixge/hosts".toList =
      some ⟨["a".toList, [], "b".toList], true⟩ ∧
    DecodeSpec "127.0.0.1 a  b # do not edit; managed by github.com/felixge/hosts".toList
      ⟨["a".toList, [], "b".toList], true⟩ :=
  ⟨by decide,
    ((ManagedHost_eq_DecodeSpec
      "127.0.0.1 a  b # do not edit; managed by github.com/felixge/hosts".toList
      (by decide)).1 _).1 (by decide)⟩

/-! ## The toggle -/

theorem setBlockedStep_append (b : Bool) (f : List (List Char)) (pre : HostLines)
    (l : HostLine) (suf : HostLines) :
    setBlockedStep b f (pre ++ l :: suf) pre.length = pre ++ toggleLine b f l :: suf := by
  simp only [setBlockedStep, toggleLine, List.getElem?_append_right (Nat.le_refl _),
    Nat.sub_self, List.getElem?_cons_zero]
  cases HostLine.ManagedHost l with
  | none => rfl
  | some mh =>
    by_cases hm : filterMatch mh f = true
    · simp [hm]
    · simp [hm]

theorem foldl_setBlockedStep (b : Bool) (f : List (List Char)) (suf pre : HostLines) :
    (List.range' pre.length suf.length).foldl (setBlockedStep b f) (pre ++ suf) =
      pre ++ suf.map (toggleLine b f) := by
  induction suf generalizing pre with
  | nil => simp [List.range']
  | cons l ls ih =>
    simp only [List.length_cons, List.range', List.foldl_cons, setBlockedStep_append,
      List.map_cons]
    have := ih (pre ++ [toggleLine b f l])
    simpa using this

theorem SetBlocked_eq_map (hl : HostLines) (b : Bool) (f : List (List Char)) :
    SetBlocked hl b f = hl.map (toggleLine b f) := by
  have := foldl_setBlockedStep b f hl []
  simpa [SetBlocked, List.range_eq_range'] using this

theorem filterMatch_iff (mh : Hosts.ManagedHost) (filter : List (List Char)) :
    filterMatch mh filter = true ↔
      filter = [] ∨ ∃ h ∈ mh.Hosts, ∃ f ∈ filter, f <:+: h := by
  simp only [filterMatch, Bool.or_eq_true, beq_iff_eq, List.length_eq_zero, List.any_eq_true,
    Contains_iff]
  constructor
  · rintro (h | ⟨f, hf, h, hh, hc⟩)
    · exact Or.inl h
    · exact Or.inr ⟨h, hh, f, hf, hc⟩
  · rintro (h | ⟨h, hh, f, hf, hc⟩)
    · exact Or.inl h
    · exact Or.inr ⟨f, hf, h, hh, hc⟩

theorem toggleLine_idem (b : Bool) (f : List (List Char)) (l : HostLine) :
    toggleLine b f (toggleLine b f l) = toggleLine b f l := by
  cases hm : HostLine.ManagedHost l with
  | none => simp [toggleLine, hm]
  | some mh =>
    by_cases hf : filterMatch mh f = true
    · have hd := decode_encode_decoded hm b
      have hf2 : filterMatch ⟨mh.Hosts, b⟩ f = true := by simpa [filterMatch] using hf
      simp [toggleLine, hm, hf, hd, hf2]
    · simp [toggleLine, hm, hf]

/-- C4: SetBlocked keeps the number of lines, and the line at index `i` is
rewritten exactly when it decodes to a record and the filter list is empty or
some hostname of the record contains some filter string: the line then becomes
Encode of the record with the requested flag. A managed line that does not
match and an unmanaged line stay as they are. -/
theorem SetBlocked_spec (hl : HostLines) (b : Bool) (filter : List (List Char)) :
    (SetBlocked hl b filter).length = hl.length ∧
    ∀ (i : Nat) (l : HostLine), hl[i]? = some l →
      (∀ mh, HostLine.ManagedHost l = some mh →
        (filter = [] ∨ ∃ h ∈ mh.Hosts, ∃ f ∈ filter, f <:+: h) →
        (SetBlocked hl b filter)[i]? = some (ManagedHost.HostLine ⟨mh.Hosts, b⟩)) ∧
      (∀ mh, HostLine.ManagedHost l = some mh →
        ¬ (filter = [] ∨ ∃ h ∈ mh.Hosts, ∃ f ∈ filter, f <:+: h) →
        (SetBlocked hl b filter)[i]? = some l) ∧
      (HostLine.ManagedHost l = none → (SetBlocked hl b filter)[i]? = some l) := by
  rw [SetBlocked_eq_map]
  refine ⟨by simp, ?_⟩
  intro i l hi
  simp only [List.getElem?_map, hi, Option.map_some', Option.some.injEq]
  refine ⟨?_, ?_, ?_⟩
  · intro mh hm hf
    simp [toggleLine, hm, (filterMatch_iff mh filter).2 hf]
  · intro mh hm hf
    have : ¬ filterMatch mh filter = true := fun h => hf ((filterMatch_iff mh filter).1 h)
    simp [toggleLine, hm, this]
  · intro hm
    simp [toggleLine, hm]

/-- Witness of `SetBlocked_spec`: under the filter `foo` the unblocked record
with host `bar.com` is untouched and the one with host `foo.com` is rewritten. -/
theorem SetBlocked_spec_witness :
    (SetBlocked ["# 127.0.0.1 bar.com # do not edit; managed by github.com/felixge/hosts".toList, "# 127.0.0.1 foo.com # do not edit; managed by github.com/felixge/hosts".toList]
        true ["foo".toList])[0]? = some "# 127.0.0.1 bar.com # do not edit; managed by github.com/felixge/hosts".toList ∧
    (SetBlocked ["# 127.0.0.1 bar.com # do not edit; managed by github.com/felixge/hosts".toList, "# 127.0.0.1 foo.com # do not edit; managed by github.com/felixge/hosts".toList]
        true ["foo".toList])[1]? = some (ManagedHost.HostLine ⟨["foo.com".toList], true⟩) :=
  ⟨((SetBlocked_spec _ true ["foo".toList]).2 0
        "# 127.0.0.1 bar.com # do not edit; managed by github.com/felixge/hosts".toList (by decide)).2.1 ⟨["bar.com".toList], false⟩
      (by decide) (fun h => absurd ((filterMatch_iff _ _).2 h) (by decide)),
    ((SetBlocked_spec _ true ["foo".toList]).2 1
        "# 127.0.0.1 foo.com # do not edit; managed by github.com/felixge/hosts".toList (by decide)).1 ⟨["foo.com".toList], false⟩
      (by decide) ((filterMatch_iff ⟨["foo.com".toList], false⟩ _).1 (by decide))⟩

/-- C5: with an empty filter list, every line that was managed decodes
afterwards to a record with the same hosts and Blocked equal to the requested
flag, and every line that was not managed is untouched. -/
theorem SetBlocked_no_filter (hl : HostLines) (b : Bool) (i : Nat) (l : HostLine)
    (hi : hl[i]? = some l) :
    (∀ mh, HostLine.ManagedHost l = some mh →
      ∃ l2, (SetBlocked hl b [])[i]? = some l2 ∧
        HostLine.ManagedHost l2 = some ⟨mh.Hosts, b⟩) ∧
    (HostLine.ManagedHost l = none → (SetBlocked hl b [])[i]? = some l) := by
  rw [SetBlocked_eq_map]
  simp only [List.getElem?_map, hi, Option.map_some', Option.some.injEq]
  constructor
  · intro mh hm
    refine ⟨_, rfl, ?_⟩
    simpa [toggleLine, hm, filterMatch] using decode_encode_decoded hm b
  · intro hm
    simp [toggleLine, hm]

/-- Witness of `SetBlocked_no_filter`: blocking everything in a file with one
unblocked managed line. -/
theorem SetBlocked_no_filter_witness :
    ∃ l2, (SetBlocked ["# 127.0.0.1 a.com # do not edit; managed by github.com/felixge/hosts".toList, "127.0.0.1 localhost".toList]
        true [])[0]? = some l2 ∧
      HostLine.ManagedHost l2 = some ⟨["a.com".toList], true⟩ :=
  (SetBlocked_no_filter _ true 0 "# 127.0.0.1 a.com # do not edit; managed by github.com/felixge/hosts".toList (by decide)).1
    ⟨["a.com".toList], false⟩ (by decide)

/-- C6: SetBlocked is idempotent, for every line sequence, flag value and
filter list: a second call with the same arguments changes nothing. -/
theorem SetBlocked_idempotent (hl : HostLines) (b : Bool) (filter : List (List Char)) :
    SetBlocked (SetBlocked hl b filter) b filter = SetBlocked hl b filter := by
  simp only [SetBlocked_eq_map, List.map_map]
  apply List.map_congr_left
  intro l _
  exact toggleLine_idem b filter l

/-! ## The report -/

theorem partitionHosts_foldl (hl : HostLines) (bl ub : List Hosts.ManagedHost) :
    hl.foldl (fun acc l =>
      match HostLine.ManagedHost l with
      | none => acc
      | some mh => if mh.Blocked then (acc.1 ++ [mh], acc.2) else (acc.1, acc.2 ++ [mh]))
      (bl, ub) =
    (bl ++ (hl.filterMap HostLine.ManagedHost).filter (fun r => r.Blocked),
      ub ++ (hl.filterMap HostLine.ManagedHost).filter (fun r => !r.Blocked)) := by
  induction hl generalizing bl ub with
  | nil => simp
  | cons l ls ih =>
    simp only [List.foldl_cons]
    cases hm : HostLine.ManagedHost l with
    | none => simp [ih, List.filterMap_cons, hm]
    | some mh =>
      cases hb : mh.Blocked <;> simp [ih, List.filterMap_cons, hm, hb]

theorem foldl_rows (g : Hosts.ManagedHost → List Char) (rs : List Hosts.ManagedHost)
    (w : List Char) : rs.foldl (fun w mh => w ++ g mh) w = w ++ rs.flatMap g := by
  induction rs generalizing w with
  | nil => simp
  | cons r rs ih => simp [List.foldl_cons, ih]

/-- C7: the report is the header `Unblocked:`, one row per managed record with
Blocked false, an empty line, the header `Blocked:` and one row per managed
record with Blocked true; a row is two spaces, the hostnames joined by a comma
and a space, and a newline; the rows keep the file order and unmanaged lines
contribute nothing. For the managed lines A (blocked), B (unblocked), C
(blocked) the report lists B under Unblocked and A then C under Blocked. -/
theorem Fprint_spec :
    (∀ (hl : HostLines) (w : List Char),
      Fprint hl w =
        w ++ "Unblocked:\n".toList ++
          reportRows ((hl.filterMap HostLine.ManagedHost).filter fun r => !r.Blocked) ++
          "\nBlocked:\n".toList ++
          reportRows ((hl.filterMap HostLine.ManagedHost).filter fun r => r.Blocked)) ∧
    Fprint ["127.0.0.1 a.com # do not edit; managed by github.com/felixge/hosts".toList, "# 127.0.0.1 b.com # do not edit; managed by github.com/felixge/hosts".toList,
        "127.0.0.1 localhost".toList, "127.0.0.1 c.com d.com # do not edit; managed by github.com/felixge/hosts".toList] [] =
      "Unblocked:\n  b.com\n\nBlocked:\n  a.com\n  c.com, d.com\n".toList := by
  refine ⟨?_, by decide⟩
  intro hl w
  have hp := partitionHosts_foldl hl [] []
  simp only [List.nil_append] at hp
  simp only [Fprint, partitionHosts, hp, fprintSection, fprintf, foldl_rows, reportRows]
  simp

/-! ## The line store -/

theorem Write_foldl (hl : HostLines) (old done : List Char) :
    hl.foldl (fun hf l => hf.Write (l ++ "\n".toList))
        (⟨done ++ old.drop done.length, done.length⟩ : File) =
      (⟨(done ++ hl.flatMap fun l => l ++ "\n".toList) ++
          old.drop (done ++ hl.flatMap fun l => l ++ "\n".toList).length,
        (done ++ hl.flatMap fun l => l ++ "\n".toList).length⟩ : File) := by
  induction hl generalizing done with
  | nil => simp
  | cons l ls ih =>
    have hstep : File.Write ⟨done ++ old.drop done.length, done.length⟩ (l ++ "\n".toList) =
        ⟨(done ++ (l ++ "\n".toList)) ++ old.drop (done ++ (l ++ "\n".toList)).length,
          (done ++ (l ++ "\n".toList)).length⟩ := by
      simp only [File.Write, File.mk.injEq, List.length_append]
      refine ⟨?_, trivial⟩
      rw [List.take_left, List.drop_append, List.drop_drop]
    simp only [List.foldl_cons, hstep, ih]
    simp [List.append_assoc]

/-- The content that `Save` leaves: the new lines, each with its newline,
followed by what the old content had beyond their length. -/
theorem Save_eq (hl : HostLines) (old : List Char) :
    Save hl (some old) =
      some ((hl.flatMap fun l => l ++ "\n".toList) ++
        old.drop (hl.flatMap fun l => l ++ "\n".toList).length) := by
  have := Write_foldl hl old []
  simp only [List.nil_append, List.length_nil, List.drop_zero] at this
  simp only [Save, OpenFile, Option.map_some', this]

/-- C3, the code at the failing input: the file holds one unblocked managed
line, `block` rewrites it two bytes shorter, and after Save the file holds the
new line followed by the last two bytes of the old content. -/
theorem Save_leaves_old_tail :
    SetBlocked ["# 127.0.0.1 a.com # do not edit; managed by github.com/felixge/hosts".toList] true [] = ["127.0.0.1 a.com # do not edit; managed by github.com/felixge/hosts".toList] ∧
    Save (SetBlocked ["# 127.0.0.1 a.com # do not edit; managed by github.com/felixge/hosts".toList] true [])
        (some "# 127.0.0.1 a.com # do not edit; managed by github.com/felixge/hosts\n".toList) =
      some "127.0.0.1 a.com # do not edit; managed by github.com/felixge/hosts\ns\n".toList := by
  decide

/-! ## The end-to-end scenario -/

/-- C8, counterexample: in the scenario the managed line is blocked, and
`unblock example` changes the line sequence. -/
theorem unblock_scenario_counterexample :
    HostLine.ManagedHost "127.0.0.1 example.com # do not edit; managed by github.com/felixge/hosts".toList =
      some ⟨["example.com".toList], true⟩ ∧
    SetBlocked ["127.0.0.1 example.com # do not edit; managed by github.com/felixge/hosts".toList, "127.0.0.1 localhost".toList]
        false ["example".toList] ≠
      ["127.0.0.1 example.com # do not edit; managed by github.com/felixge/hosts".toList, "127.0.0.1 localhost".toList] := by
  decide

/-- C8, as amended: in the scenario the managed line is blocked;
`SetBlocked(lines, false, ["example"])` rewrites it with a leading `"# "` and
leaves `127.0.0.1 localhost` unchanged, and the report is then the header
`Unblocked:` with the row `example.com`, and the header `Blocked:` with no row. -/
theorem unblock_scenario :
    HostLine.ManagedHost "127.0.0.1 example.com # do not edit; managed by github.com/felixge/hosts".toList =
      some ⟨["example.com".toList], true⟩ ∧
    SetBlocked ["127.0.0.1 example.com # do not edit; managed by github.com/felixge/hosts".toList, "127.0.0.1 localhost".toList]
        false ["example".toList] =
      ["# 127.0.0.1 example.com # do not edit; managed by github.com/felixge/hosts".toList, "127.0.0.1 localhost".toList] ∧
    Fprint (SetBlocked ["127.0.0.1 example.com # do not edit; managed by github.com/felixge/hosts".toList, "127.0.0.1 localhost".toList]
        false ["example".toList]) [] =
      "Unblocked:\n  example.com\n\nBlocked:\n".toList := by
  decide

/-- C9, counterexample: in the scenario `block example` leaves the managed
line as it is, and that line does not start with `"# "`. -/
theorem block_scenario_counterexample :
    (SetBlocked ["127.0.0.1 example.com # do not edit; managed by github.com/felixge/hosts".toList, "127.0.0.1 localhost".toList]
        true ["example".toList])[0]? = some "127.0.0.1 example.com # do not edit; managed by github.com/felixge/hosts".toList ∧
    HasPrefix "127.0.0.1 example.com # do not edit; managed by github.com/felixge/hosts".toList "# ".toList = false := by
  decide

/-- C9, as amended: in the scenario `SetBlocked(lines, true, ["example"])`
rewrites the managed line without a `"# "` at its start, which leaves both
lines as they were, and the report is then the header `Unblocked:` with no
row, and the header `Blocked:` with the row `example.com`. -/
theorem block_scenario :
    SetBlocked ["127.0.0.1 example.com # do not edit; managed by github.com/felixge/hosts".toList, "127.0.0.1 localhost".toList]
        true ["example".toList] =
      [ManagedHost.HostLine ⟨["example.com".toList], true⟩, "127.0.0.1 localhost".toList] ∧
    ManagedHost.HostLine ⟨["example.com".toList], true⟩ =
      "127.0.0.1 example.com # do not edit; managed by github.com/felixge/hosts".toList ∧
    Fprint (SetBlocked ["127.0.0.1 example.com # do not edit; managed by github.com/felixge/hosts".toList, "127.0.0.1 localhost".toList]
        true ["example".toList]) [] =
      "Unblocked:\n\nBlocked:\n  example.com\n".toList := by
  decide

/-! ## Further properties of the codec and the toggle -/

theorem Split_mem {s : List Char} {sep : Char} {p : List Char} (hp : p ∈ Split s sep) :
    sep ∉ p ∧ ∀ x ∈ p, x ∈ s := by
  induction s generalizing p with
  | nil =>
    simp only [Split, List.mem_singleton] at hp
    subst hp
    simp
  | cons c cs ih =>
    simp only [Split] at hp
    by_cases hc : c = sep
    · simp only [hc, if_true, List.mem_cons] at hp
      rcases hp with rfl | hp
      · simp
      · obtain ⟨h1, h2⟩ := ih hp
        exact ⟨h1, fun x hx => List.mem_cons_of_mem _ (h2 x hx)⟩
    · simp only [hc, if_false] at hp
      cases hs : Split cs sep with
      | nil => exact absurd hs (Split_ne_nil cs sep)
      | cons q qs =>
        rw [hs] at hp
        simp only [List.mem_cons] at hp
        rcases hp with rfl | hp
        · obtain ⟨h1, h2⟩ := ih (p := q) (by rw [hs]; exact List.mem_cons_self _ _)
          refine ⟨?_, ?_⟩
          · intro hm
            rcases List.mem_cons.1 hm with hm | hm
            · exact hc hm.symm
            · exact h1 hm
          · intro x hx
            rcases List.mem_cons.1 hx with rfl | hx
            · exact List.mem_cons_self _ _
            · exact List.mem_cons_of_mem _ (h2 x hx)
        · obtain ⟨h1, h2⟩ := ih (p := p) (by rw [hs]; exact List.mem_cons_of_mem _ hp)
          exact ⟨h1, fun x hx => List.mem_cons_of_mem _ (h2 x hx)⟩

theorem decoded_hosts {l : HostLine} {mh : Hosts.ManagedHost}
    (h : HostLine.ManagedHost l = some mh) :
    mh.Hosts ≠ [] ∧ ∀ a ∈ mh.Hosts, ' ' ∉ a ∧ '#' ∉ a ∧ '\n' ∉ a := by
  obtain ⟨skipped, c, seg, rest, hne, hs, -, -, rfl⟩ := ManagedHost_some h
  refine ⟨Split_ne_nil seg ' ', ?_⟩
  intro a ha
  obtain ⟨h1, h2⟩ := Split_mem ha
  exact ⟨h1, fun hm => hs _ (h2 _ hm) (by simp), fun hm => hs _ (h2 _ hm) (by simp)⟩

theorem toggleLine_toggleLine (b1 b2 : Bool) (f : List (List Char)) (l : HostLine) :
    toggleLine b2 f (toggleLine b1 f l) = toggleLine b2 f l := by
  cases hm : HostLine.ManagedHost l with
  | none => simp [toggleLine, hm]
  | some mh =>
    by_cases hf : filterMatch mh f = true
    · have hd := decode_encode_decoded hm b1
      have hf2 : filterMatch ⟨mh.Hosts, b1⟩ f = true := by simpa [filterMatch] using hf
      simp [toggleLine, hm, hf, hd, hf2]
    · simp [toggleLine, hm, hf]

theorem partitionHosts_of_unmanaged {hl : HostLines}
    (h : ∀ l ∈ hl, HostLine.ManagedHost l = none) : partitionHosts hl = ([], []) := by
  have hfm : hl.filterMap HostLine.ManagedHost = [] := by
    rw [List.filterMap_eq_nil_iff]
    exact h
  have := partitionHosts_foldl hl [] []
  simpa [partitionHosts, hfm] using this

/-- C13: for every line sequence without a managed line, the empty one
included, the report is exactly the two headers separated by an empty line,
with no row and nothing after the last header; and in general a section
without records prints only its header (after the separator, for the second
section). -/
theorem Fprint_no_managed (hl : HostLines) (h : ∀ l ∈ hl, HostLine.ManagedHost l = none) :
    Fprint hl [] = "Unblocked:\n\nBlocked:\n".toList ∧
    ∀ (w name : List Char),
      fprintSection w 0 name [] = w ++ name ++ ":\n".toList ∧
      fprintSection w 1 name [] = w ++ "\n".toList ++ name ++ ":\n".toList := by
  constructor
  · simp only [Fprint, partitionHosts_of_unmanaged h]
    decide
  · intro w name
    simp [fprintSection, fprintf]

/-- Witness of `Fprint_no_managed`: a file with one unmanaged line. -/
theorem Fprint_no_managed_witness :
    Fprint ["127.0.0.1 localhost".toList] [] = "Unblocked:\n\nBlocked:\n".toList :=
  (Fprint_no_managed ["127.0.0.1 localhost".toList] (by decide)).1

/-- C15: every record that Decode produces round-trips: the encoded record is
accepted again and decodes to the same record; the Hosts list of a decoded
record is not empty and its entries contain neither a space nor a `#`. -/
theorem decoded_roundtrip (line : HostLine) (mh : Hosts.ManagedHost)
    (h : HostLine.ManagedHost line = some mh) :
    HostLine.ManagedHost (ManagedHost.HostLine mh) = some mh ∧
    mh.Hosts ≠ [] ∧ ∀ a ∈ mh.Hosts, ' ' ∉ a ∧ '#' ∉ a := by
  obtain ⟨hne, hall⟩ := decoded_hosts h
  exact ⟨decode_encode_decoded h mh.Blocked, hne,
    fun a ha => ⟨(hall a ha).1, (hall a ha).2.1⟩⟩

/-- Witness of `decoded_roundtrip`: a line with text after the marker. -/
theorem decoded_roundtrip_witness :
    HostLine.ManagedHost (ManagedHost.HostLine ⟨["a".toList, "b".toList], false⟩) =
      some ⟨["a".toList, "b".toList], false⟩ ∧
    ["a".toList, "b".toList] ≠ [] ∧
    ∀ a ∈ ["a".toList, "b".toList], ' ' ∉ a ∧ '#' ∉ a :=
  decoded_roundtrip "# 127.0.0.1 a b # do not edit; managed by github.com/felixge/hosts more".toList ⟨["a".toList, "b".toList], false⟩
    (by decide)

/-- C16, counterexample: a managed text with a line feed, blocked and with
nothing after the marker: `SetBlocked true []` keeps the flag and removes the
text before the match, so more than the flag and the text after the marker has
changed. -/
theorem SetBlocked_shape_counterexample :
    HostLine.ManagedHost "x\n127.0.0.1 a # do not edit; managed by github.com/felixge/hosts".toList = some ⟨["a".toList], true⟩ ∧
    hostsMarker.isSuffixOf "x\n127.0.0.1 a # do not edit; managed by github.com/felixge/hosts".toList = true ∧
    SetBlocked ["x\n127.0.0.1 a # do not edit; managed by github.com/felixge/hosts".toList] true [] = ["127.0.0.1 a # do not edit; managed by github.com/felixge/hosts".toList] ∧
    HostLine.ManagedHost "127.0.0.1 a # do not edit; managed by github.com/felixge/hosts".toList = some ⟨["a".toList], true⟩ ∧
    "127.0.0.1 a # do not edit; managed by github.com/felixge/hosts".toList ≠ "x\n127.0.0.1 a # do not edit; managed by github.com/felixge/hosts".toList := by
  decide

/-- C16, as amended: SetBlocked keeps the shape of the file: the number of
lines is the same, an unmanaged line stays identical (hence unmanaged), and a
managed line stays managed with the same Hosts sequence. For a managed line
without a line feed only the Blocked flag and the text after the first marker
can differ: the line is the optional `"# "`, a body that ends at its first
marker, and the rest; the new line is the same line, or the optional `"# "` of
its flag followed by the same body. -/
theorem SetBlocked_shape (hl : HostLines) (b : Bool) (filter : List (List Char)) :
    (SetBlocked hl b filter).length = hl.length ∧
    ∀ (i : Nat) (l : HostLine), hl[i]? = some l →
      (HostLine.ManagedHost l = none →
        (SetBlocked hl b filter)[i]? = some l) ∧
      (∀ mh, HostLine.ManagedHost l = some mh →
        ∃ l2 b2, (SetBlocked hl b filter)[i]? = some l2 ∧
          HostLine.ManagedHost l2 = some ⟨mh.Hosts, b2⟩ ∧
          ('\n' ∉ l →
            ∃ body rest, hostsMarker <:+ body ∧ ¬ hostsMarker <:+: body.dropLast ∧
              l = (if mh.Blocked then [] else "# ".toList) ++ body ++ rest ∧
              (l2 = l ∨ l2 = (if b2 then [] else "# ".toList) ++ body))) := by
  rw [SetBlocked_eq_map]
  refine ⟨by simp, ?_⟩
  intro i l hi
  simp only [List.getElem?_map, hi, Option.map_some', Option.some.injEq]
  constructor
  · intro hm
    simp [toggleLine, hm]
  · intro mh hm
    have hshape : '\n' ∉ l → ∃ body rest, hostsMarker <:+ body ∧
        ¬ hostsMarker <:+: body.dropLast ∧
        l = (if mh.Blocked then [] else "# ".toList) ++ body ++ rest ∧
        ∀ b2 : Bool, ManagedHost.HostLine ⟨mh.Hosts, b2⟩ =
          (if b2 then [] else "# ".toList) ++ body := by
      intro hlf
      obtain ⟨skipped, c, seg, rest, hne, hs, rfl, hsk, rfl⟩ := ManagedHost_some hm
      have hsk2 : skipped = [] := by
        rcases hsk with hsk | hsk
        · exact hsk
        · exact absurd (List.mem_append_left _ (List.mem_of_getLast?_eq_some hsk)) hlf
      subst hsk2
      refine ⟨lineText false seg, rest, hostsMarker_suffix_lineText false seg,
        no_marker_lineText false hs, ?_, ?_⟩
      · cases c <;> simp [lineText]
      · intro b2
        cases b2 <;> simp [HostLine_eq_lineText, Join_Split, lineText]
    by_cases hf : filterMatch mh filter = true
    · refine ⟨_, b, rfl, by simpa [toggleLine, hm, hf] using decode_encode_decoded hm b, ?_⟩
      intro hlf
      obtain ⟨body, rest, h1, h2, h3, h4⟩ := hshape hlf
      exact ⟨body, rest, h1, h2, h3, Or.inr (by simp [toggleLine, hm, hf, h4 b])⟩
    · refine ⟨_, mh.Blocked, rfl, by simp [toggleLine, hm, hf], ?_⟩
      intro hlf
      obtain ⟨body, rest, h1, h2, h3, -⟩ := hshape hlf
      exact ⟨body, rest, h1, h2, h3, Or.inl (by simp [toggleLine, hm, hf])⟩

/-- Witness of `SetBlocked_shape`: a managed line with text after the marker
is still managed, with the same hosts, after unblocking. -/
theorem SetBlocked_shape_witness :
    ∃ l2 b2, (SetBlocked ["127.0.0.1 a b # do not edit; managed by github.com/felixge/hosts more".toList] false [])[0]? = some l2 ∧
      HostLine.ManagedHost l2 = some ⟨["a".toList, "b".toList], b2⟩ ∧
      ('\n' ∉ "127.0.0.1 a b # do not edit; managed by github.com/felixge/hosts more".toList →
        ∃ body rest, hostsMarker <:+ body ∧ ¬ hostsMarker <:+: body.dropLast ∧
          "127.0.0.1 a b # do not edit; managed by github.com/felixge/hosts more".toList =
            (if (true : Bool) then [] else "# ".toList) ++ body ++ rest ∧
          (l2 = "127.0.0.1 a b # do not edit; managed by github.com/felixge/hosts more".toList ∨
            l2 = (if b2 then [] else "# ".toList) ++ body)) :=
  ((SetBlocked_shape ["127.0.0.1 a b # do not edit; managed by github.com/felixge/hosts more".toList] false []).2 0
    "127.0.0.1 a b # do not edit; managed by github.com/felixge/hosts more".toList (by decide)).2 ⟨["a".toList, "b".toList], true⟩ (by decide)

/-- C18: filters are matched against single hostnames: when the filter list
is not empty and every filter string contains a space or a `#`, SetBlocked
leaves every line unchanged. -/
theorem SetBlocked_filter_across_hosts (hl : HostLines) (b : Bool)
    (filter : List (List Char)) (hne : filter ≠ [])
    (hf : ∀ f ∈ filter, ' ' ∈ f ∨ '#' ∈ f) : SetBlocked hl b filter = hl := by
  rw [SetBlocked_eq_map]
  conv => rhs; rw [← List.map_id hl]
  apply List.map_congr_left
  intro l _
  cases hm : HostLine.ManagedHost l with
  | none => simp [toggleLine, hm]
  | some mh =>
    have hno : ¬ filterMatch mh filter = true := by
      intro hfm
      rcases (filterMatch_iff mh filter).1 hfm with h0 | ⟨h, hh, f, hfin, hinf⟩
      · exact hne h0
      · obtain ⟨-, hall⟩ := decoded_hosts hm
        rcases hf f hfin with hsp | hsh
        · exact (hall h hh).1 (hinf.subset hsp)
        · exact (hall h hh).2.1 (hinf.subset hsh)
    simp [toggleLine, hm, hno]

/-- Witness of `SetBlocked_filter_across_hosts`: the filter `a.com b.com` does
not match the record with hosts `a.com` and `b.com`. -/
theorem SetBlocked_filter_across_hosts_witness :
    SetBlocked ["# 127.0.0.1 a.com b.com # do not edit; managed by github.com/felixge/hosts".toList] true ["a.com b.com".toList] =
      ["# 127.0.0.1 a.com b.com # do not edit; managed by github.com/felixge/hosts".toList] :=
  SetBlocked_filter_across_hosts _ true ["a.com b.com".toList] (by decide) (by decide)

/-- C19: the last SetBlocked call wins: applying `SetBlocked(b, f)` after
`SetBlocked(not b, f)` gives the same lines as `SetBlocked(b, f)` alone. -/
theorem SetBlocked_last_wins (hl : HostLines) (b : Bool) (f : List (List Char)) :
    SetBlocked (SetBlocked hl (!b) f) b f = SetBlocked hl b f := by
  simp only [SetBlocked_eq_map, List.map_map]
  apply List.map_congr_left
  intro l _
  exact toggleLine_toggleLine (!b) b f l

theorem hostsMarker_suffix_HostLine (mh : Hosts.ManagedHost) :
    hostsMarker <:+ ManagedHost.HostLine mh := by
  rw [HostLine_eq_lineText]
  refine ⟨(if (!mh.Blocked) = true then "# ".toList else []) ++
    (blockIP ++ ' ' :: (Join mh.Hosts [' '] ++ [' '])), ?_⟩
  simp [lineText]

theorem decoded_line {line : HostLine} {mh : Hosts.ManagedHost} (hlf : '\n' ∉ line)
    (h : HostLine.ManagedHost line = some mh) :
    ∃ rest, line = ManagedHost.HostLine mh ++ rest := by
  obtain ⟨skipped, c, seg, rest, hne, hs, rfl, hsk, rfl⟩ := ManagedHost_some h
  have hsk2 : skipped = [] := by
    rcases hsk with hsk | hsk
    · exact hsk
    · exact absurd (List.mem_append_left _ (List.mem_of_getLast?_eq_some hsk)) hlf
  subst hsk2
  exact ⟨rest, by simp [HostLine_eq_lineText, Join_Split]⟩

/-- C17, counterexample: a line with the marker twice is accepted and ends
with the marker, yet its re-encoding differs from it; and a text with a line
feed whose second line is a managed line is accepted although the re-encoding
does not start it. -/
theorem encode_decode_rest_counterexample :
    (HostLine.ManagedHost "127.0.0.1 a # do not edit; managed by github.com/felixge/hosts # do not edit; managed by github.com/felixge/hosts".toList = some ⟨["a".toList], true⟩ ∧
      hostsMarker.isSuffixOf "127.0.0.1 a # do not edit; managed by github.com/felixge/hosts # do not edit; managed by github.com/felixge/hosts".toList = true ∧
      ManagedHost.HostLine ⟨["a".toList], true⟩ ≠ "127.0.0.1 a # do not edit; managed by github.com/felixge/hosts # do not edit; managed by github.com/felixge/hosts".toList) ∧
    (HostLine.ManagedHost "x\n127.0.0.1 a # do not edit; managed by github.com/felixge/hosts".toList = some ⟨["a".toList], true⟩ ∧
      HasPrefix "x\n127.0.0.1 a # do not edit; managed by github.com/felixge/hosts".toList (ManagedHost.HostLine ⟨["a".toList], true⟩) =
        false) := by
  decide

/-- C17, as amended: for every line without a line feed that Decode accepts,
the line is the re-encoded record followed by some text `rest`, the text after
the first marker; the re-encoding equals the line exactly when `rest` is
empty, and then the line ends with the marker. SetBlocked on a matching
managed line puts Encode of the record with the requested flag in its place:
that text ends with the marker, and with the flag unchanged it is the line
without `rest`. -/
theorem encode_decode_rest (line : HostLine) (mh : Hosts.ManagedHost) (hlf : '\n' ∉ line)
    (h : HostLine.ManagedHost line = some mh) :
    ∃ rest, line = ManagedHost.HostLine mh ++ rest ∧
      (ManagedHost.HostLine mh = line ↔ rest = []) ∧
      (ManagedHost.HostLine mh = line → hostsMarker <:+ line) ∧
      ∀ (hl : HostLines) (i : Nat) (b : Bool) (filter : List (List Char)),
        hl[i]? = some line → filterMatch mh filter = true →
        (SetBlocked hl b filter)[i]? = some (ManagedHost.HostLine ⟨mh.Hosts, b⟩) ∧
        hostsMarker <:+ ManagedHost.HostLine ⟨mh.Hosts, b⟩ ∧
        (b = mh.Blocked → ManagedHost.HostLine ⟨mh.Hosts, b⟩ ++ rest = line) := by
  obtain ⟨rest, hrest⟩ := decoded_line hlf h
  refine ⟨rest, hrest, ?_, ?_, ?_⟩
  · constructor
    · intro heq
      have hlen := congrArg List.length hrest
      rw [← heq, List.length_append] at hlen
      exact List.length_eq_zero.1 (by omega)
    · rintro rfl
      simpa using hrest.symm
  · intro heq
    rw [← heq]
    exact hostsMarker_suffix_HostLine mh
  · intro hl i b filter hi hf
    refine ⟨?_, hostsMarker_suffix_HostLine _, ?_⟩
    · rw [SetBlocked_eq_map]
      simp [List.getElem?_map, hi, toggleLine, h, hf]
    · rintro rfl
      exact hrest.symm

/-- Witness of `encode_decode_rest` on the line with the marker twice. -/
theorem encode_decode_rest_witness :
    ∃ rest, "127.0.0.1 a # do not edit; managed by github.com/felixge/hosts # do not edit; managed by github.com/felixge/hosts".toList = ManagedHost.HostLine ⟨["a".toList], true⟩ ++ rest ∧
      (ManagedHost.HostLine ⟨["a".toList], true⟩ = "127.0.0.1 a # do not edit; managed by github.com/felixge/hosts # do not edit; managed by github.com/felixge/hosts".toList ↔
        rest = []) :=
  (encode_decode_rest "127.0.0.1 a # do not edit; managed by github.com/felixge/hosts # do not edit; managed by github.com/felixge/hosts".toList ⟨["a".toList], true⟩ (by decide)
    (by decide)).imp fun _ hr => ⟨hr.1, hr.2.1⟩

/-! ## The line reader -/

theorem IndexByte_none {l : List Char} {c : Char} (h : c ∉ l) : IndexByte l c = none := by
  induction l with
  | nil => rfl
  | cons x xs ih =>
    have hx : x ≠ c := fun hxc => h (by simp [hxc])
    simp [IndexByte, hx, ih (fun hm => h (List.mem_cons_of_mem _ hm))]

theorem IndexByte_append {l : List Char} {c : Char} (h : c ∉ l) (t : List Char) :
    IndexByte (l ++ c :: t) c = some l.length := by
  induction l with
  | nil => simp [IndexByte]
  | cons x xs ih =>
    have hx : x ≠ c := fun hxc => h (by simp [hxc])
    simp [IndexByte, hx, ih (fun hm => h (List.mem_cons_of_mem _ hm))]

theorem ReadSlice_line {size : Nat} {l : List Char} (hl : '\n' ∉ l) (hlen : l.length < size)
    (t : List Char) :
    ReadSlice size '\n' (l ++ '\n' :: t) = (l ++ ['\n'], none, t) := by
  obtain ⟨k, rfl⟩ : ∃ k, size = l.length + 1 + k := ⟨size - l.length - 1, by omega⟩
  have htake : (l ++ '\n' :: t).take (l.length + 1 + k) = l ++ '\n' :: t.take k := by
    rw [List.take_append_eq_append_take]
    simp [List.take_of_length_le, Nat.add_assoc, Nat.add_comm 1 k]
  simp only [ReadSlice, htake, IndexByte_append hl]
  simp [List.take_append_eq_append_take, List.drop_append_eq_append_drop]

theorem dropCR_eq (l : List Char) :
    List.take (l.length + 1 -
        if 0 < l.length ∧ (l ++ ['\n'])[l.length - 1]? = some '\r' then 2 else 1)
      (l ++ ['\n']) = dropCR l := by
  rcases List.eq_nil_or_concat l with rfl | ⟨l2, x, rfl⟩
  · simp [dropCR]
  · simp only [List.concat_eq_append]
    have hget : (l2 ++ [x] ++ ['\n'])[(l2 ++ [x]).length - 1]? = some x := by
      rw [List.append_assoc, List.getElem?_append_right (by simp)]
      simp
    rw [hget]
    by_cases hx : x = '\r'
    · subst hx
      simp [dropCR, List.take_append_eq_append_take]
    · simp [dropCR, hx, List.take_append_eq_append_take]

theorem ReadLine_line {size : Nat} {l : List Char} (hl : '\n' ∉ l) (hlen : l.length < size)
    (t : List Char) :
    ReadLine size (l ++ '\n' :: t) = (dropCR l, false, none, t) := by
  have hd := dropCR_eq l
  simp only [ReadLine, ReadSlice_line hl hlen]
  simp [hd]

theorem ReadLine_nil {size : Nat} (hsize : 0 < size) :
    ReadLine size [] = ([], false, some ReadErr.EOF, []) := by
  simp [ReadLine, ReadSlice, IndexByte, hsize]

theorem ReadLine_full {size : Nat} {s : List Char}
    (hlen : size ≤ s.length) (hs : '\n' ∉ s.take size) :
    ∃ rest, ReadLine size s = (dropCR (s.take size), true, none, rest) := by
  have hnot : ¬ s.length < size := by omega
  simp only [ReadLine, ReadSlice, IndexByte_none hs, hnot, if_false]
  by_cases hcr : (s.take size).getLast? = some '\r'
  · exact ⟨'\r' :: s.drop size, by simp [hcr, dropCR]⟩
  · exact ⟨s.drop size, by simp [hcr, dropCR]⟩

theorem serialize_cons (l : List Char) (ls : HostLines) (t : List Char) :
    serialize (l :: ls) ++ t = l ++ '\n' :: (serialize ls ++ t) := by
  simp [serialize]

theorem length_le_serialize (ls : HostLines) : ls.length ≤ (serialize ls).length := by
  induction ls with
  | nil => simp [serialize]
  | cons l ls ih =>
    have := serialize_cons l ls []
    simp only [List.append_nil] at this
    rw [this]
    simp
    omega

theorem readLoop_lines {size : Nat} (pre : HostLines)
    (hpre : ∀ l ∈ pre, '\n' ∉ l ∧ l.length < size) (k i : Nat) (acc : HostLines)
    (t : List Char) :
    readLoop size (pre.length + k) i acc (serialize pre ++ t) =
      readLoop size k (i + pre.length) (acc ++ pre.map dropCR) t := by
  induction pre generalizing i acc with
  | nil => simp [serialize]
  | cons l ls ih =>
    have hl := hpre l (List.mem_cons_self _ _)
    have hfuel : (l :: ls).length + k = (ls.length + k) + 1 := by simp; omega
    rw [hfuel, serialize_cons]
    simp only [readLoop, ReadLine_line hl.1 hl.2]
    rw [ih (fun x hx => hpre x (List.mem_cons_of_mem _ hx))]
    simp [Nat.add_assoc, Nat.add_comm 1]

theorem readLoop_too_long {size : Nat} (pre : HostLines)
    (hpre : ∀ l ∈ pre, '\n' ∉ l ∧ l.length < size) {s : List Char}
    (hlen : size ≤ s.length) (hs : '\n' ∉ s.take size) (k i : Nat) (acc : HostLines) :
    readLoop size (pre.length + (k + 1)) i acc (serialize pre ++ s) =
      some (LoadResult.error (LoadError.lineTooLong (i + pre.length) (dropCR (s.take size)))) := by
  rw [readLoop_lines pre hpre]
  obtain ⟨rest, hrest⟩ := ReadLine_full hlen hs
  simp [readLoop, hrest]

theorem readLoop_end {size : Nat} (hsize : 0 < size) (k i : Nat) (acc : HostLines) :
    readLoop size (k + 1) i acc [] = some (LoadResult.ok acc) := by
  simp [readLoop, ReadLine_nil hsize]

theorem ReadHostLines_serialize_append (pre : HostLines)
    (hpre : ∀ l ∈ pre, '\n' ∉ l ∧ l.length < defaultBufSize) (s : List Char) :
    ReadHostLines (some (serialize pre ++ s)) =
      readLoop defaultBufSize (s.length + (serialize pre).length - pre.length + 1) (1 + pre.length)
        (pre.map dropCR) s := by
  have hle := length_le_serialize pre
  have hfuel : (serialize pre ++ s).length + 1 =
      pre.length + (s.length + (serialize pre).length - pre.length + 1) := by
    simp only [List.length_append]
    omega
  simp only [ReadHostLines, hfuel]
  rw [readLoop_lines pre hpre]
  simp

theorem dropCR_of_ne {l : List Char} (h : l.getLast? ≠ some '\r') : dropCR l = l := by
  simp [dropCR, h]

theorem Join_cons_of_ne_nil (a : List Char) {rest : List (List Char)} (h : rest ≠ [])
    (sep : List Char) : Join (a :: rest) sep = a ++ sep ++ Join rest sep := by
  cases rest with
  | nil => exact absurd rfl h
  | cons b more => simp [Join]

theorem Join_append_cons (pre : List (List Char)) (l : List Char) (post : List (List Char)) :
    Join (pre ++ l :: post) ['\n'] = serialize pre ++ Join (l :: post) ['\n'] := by
  induction pre with
  | nil => simp [serialize]
  | cons p ps ih =>
    rw [List.cons_append, Join_cons_of_ne_nil p (by simp), ih]
    simp [serialize]

theorem Join_cons_exists (l : List Char) (post : List (List Char)) (sep : List Char) :
    ∃ tail, Join (l :: post) sep = l ++ tail := by
  cases post with
  | nil => exact ⟨[], by simp [Join]⟩
  | cons b more => exact ⟨sep ++ Join (b :: more) sep, by simp [Join]⟩

/-- C11, as amended: when some line of the file content (the bytes between
line feeds, a carriage return included) has at least as many bytes as the
buffer of the reader, and it is the first such line, `ReadHostLines` fails with
the line-too-long error that names the 1-based index of that line and carries
its first bytes; no line sequence is returned. -/
theorem ReadHostLines_line_too_long (content : List Char) (i : Nat) (l : List Char)
    (hi : (Split content '\n')[i]? = some l) (hlong : defaultBufSize ≤ l.length)
    (hfirst : ∀ j l2, j < i → (Split content '\n')[j]? = some l2 →
      l2.length < defaultBufSize) :
    ReadHostLines (some content) =
      some (LoadResult.error
        (LoadError.lineTooLong (i + 1) (dropCR (l.take defaultBufSize)))) := by
  obtain ⟨hilt, hil⟩ := List.getElem?_eq_some_iff.1 hi
  have hls : Split content '\n' =
      (Split content '\n').take i ++ l :: (Split content '\n').drop (i + 1) := by
    conv => lhs; rw [← List.take_append_drop i (Split content '\n')]
    rw [List.drop_eq_getElem_cons hilt, hil]
  have hpre : ∀ p ∈ (Split content '\n').take i, '\n' ∉ p ∧ p.length < defaultBufSize := by
    intro p hp
    refine ⟨(Split_mem (List.mem_of_mem_take hp)).1, ?_⟩
    obtain ⟨j, hj, hjp⟩ := List.getElem_of_mem hp
    have hj2 : j < i := by
      simp only [List.length_take] at hj
      omega
    apply hfirst j p hj2
    rw [List.getElem_take] at hjp
    rw [List.getElem?_eq_getElem, hjp]
  obtain ⟨tail, htail⟩ := Join_cons_exists l ((Split content '\n').drop (i + 1)) ['\n']
  have hcontent : content = serialize ((Split content '\n').take i) ++ (l ++ tail) := by
    conv => lhs; rw [← Join_Split content '\n', hls, Join_append_cons, htail]
  have hlen : defaultBufSize ≤ (l ++ tail).length := by
    simp only [List.length_append]
    omega
  have htake : (l ++ tail).take defaultBufSize = l.take defaultBufSize := by
    rw [List.take_append_of_le_length hlong]
  have hnl : '\n' ∉ (l ++ tail).take defaultBufSize := by
    rw [htake]
    intro hm
    exact (Split_mem (List.getElem?_mem hi)).1 (List.mem_of_mem_take hm)
  obtain ⟨rest, hrest⟩ := ReadLine_full hlen hnl
  have hlt : ((Split content '\n').take i).length = i := by
    simp only [List.length_take]
    omega
  conv => lhs; rw [hcontent, ReadHostLines_serialize_append _ hpre]
  simp only [readLoop, hrest, htake, hlt, Nat.add_comm 1 i]

theorem not_mem_replicate {c x : Char} (n : Nat) (h : c ≠ x) : c ∉ List.replicate n x := by
  intro hm
  exact h (List.eq_of_mem_replicate hm)

theorem dropCR_replicate {x : Char} (n : Nat) (h : x ≠ '\r') :
    dropCR (List.replicate n x) = List.replicate n x := by
  apply dropCR_of_ne
  intro hl
  exact h (List.eq_of_mem_replicate (List.mem_of_getLast?_eq_some hl)).symm

theorem Split_two {l1 l2 : List Char} (h1 : '\n' ∉ l1) (h2 : '\n' ∉ l2) :
    Split (l1 ++ '\n' :: l2) '\n' = [l1, l2] := by
  rw [Split_append_sep h1, Split_of_not_mem h2]

theorem ReadHostLines_first_full (n : Nat) (x : Char) (t : List Char)
    (hn : n = defaultBufSize) (hx : x ≠ '\n') (hxr : x ≠ '\r') :
    ReadHostLines (some (List.replicate n x ++ t)) =
      some (LoadResult.error (LoadError.lineTooLong 1 (List.replicate n x))) := by
  have hlen : defaultBufSize ≤ (List.replicate n x ++ t).length := by
    rw [List.length_append, List.length_replicate]
    omega
  have htake : (List.replicate n x ++ t).take defaultBufSize = List.replicate n x := by
    rw [List.take_append_of_le_length (by rw [List.length_replicate]; omega)]
    exact List.take_of_length_le (by rw [List.length_replicate]; omega)
  obtain ⟨rest, hrest⟩ := ReadLine_full hlen (by rw [htake]; exact not_mem_replicate _ hx.symm)
  have := ReadHostLines_serialize_append [] (by simp) (List.replicate n x ++ t)
  simp only [serialize, List.flatMap_nil, List.nil_append] at this
  rw [this]
  simp only [readLoop, hrest, htake, dropCR_replicate n hxr]
  rfl

/-- C11, counterexample: the first line has exactly as many bytes as the
buffer, so it is not longer than the buffer, and the second line is longer;
the error names line 1, not line 2. -/
theorem ReadHostLines_line_too_long_counterexample :
    Split (List.replicate 4096 'a' ++ '\n' :: List.replicate 4097 'b') '\n' =
      [List.replicate 4096 'a', List.replicate 4097 'b'] ∧
    ¬ defaultBufSize < (List.replicate 4096 'a').length ∧
    defaultBufSize < (List.replicate 4097 'b').length ∧
    ReadHostLines (some (List.replicate 4096 'a' ++ '\n' :: List.replicate 4097 'b')) =
      some (LoadResult.error (LoadError.lineTooLong 1 (List.replicate 4096 'a'))) :=
  ⟨Split_two (not_mem_replicate _ (by decide)) (not_mem_replicate _ (by decide)),
    by rw [List.length_replicate]; decide,
    by rw [List.length_replicate]; decide,
    ReadHostLines_first_full 4096 'a' _ (by decide) (by decide) (by decide)⟩

/-- Witness of `ReadHostLines_line_too_long`: a short line followed by a last
line of 4096 bytes without a line feed. -/
theorem ReadHostLines_line_too_long_witness :
    ReadHostLines (some ("ok".toList ++ '\n' :: List.replicate 4096 'a')) =
      some (LoadResult.error (LoadError.lineTooLong 2
        (dropCR ((List.replicate 4096 'a').take defaultBufSize)))) :=
  ReadHostLines_line_too_long ("ok".toList ++ '\n' :: List.replicate 4096 'a') 1
    (List.replicate 4096 'a')
    (by rw [Split_two (by decide) (not_mem_replicate _ (by decide))]; rfl)
    (by rw [List.length_replicate]; decide)
    (by
      intro j l2 hj h2
      rw [Split_two (by decide) (not_mem_replicate _ (by decide))] at h2
      have hj0 : j = 0 := by omega
      subst hj0
      simp only [List.getElem?_cons_zero, Option.some.injEq] at h2
      subst h2
      decide)

/-- C14: `ReadHostLines` inverts the serialization of `Save`: for lines
without a line feed, not ending in a carriage return and shorter than the
buffer of the reader, reading the content made of each line followed by one
line feed returns the lines in order; empty content gives the empty sequence;
and reading what `Save` leaves in a file whose old content was not longer
returns the saved lines. -/
theorem ReadHostLines_serialize (lines : HostLines)
    (h : ∀ l ∈ lines, '\n' ∉ l ∧ l.getLast? ≠ some '\r' ∧ l.length < defaultBufSize) :
    ReadHostLines (some (lines.flatMap fun l => l ++ "\n".toList)) =
      some (LoadResult.ok lines) ∧
    ReadHostLines (some []) = some (LoadResult.ok []) ∧
    ∀ old : List Char, old.length ≤ (lines.flatMap fun l => l ++ "\n".toList).length →
      ReadHostLines (Save lines (some old)) = some (LoadResult.ok lines) := by
  have hmap : lines.map dropCR = lines := by
    conv => rhs; rw [← List.map_id lines]
    apply List.map_congr_left
    intro l hl
    exact dropCR_of_ne (h l hl).2.1
  have hmain : ReadHostLines (some (serialize lines)) = some (LoadResult.ok lines) := by
    have := ReadHostLines_serialize_append lines (fun l hl => ⟨(h l hl).1, (h l hl).2.2⟩) []
    rw [List.append_nil] at this
    rw [this, readLoop_end (by decide), hmap]
  refine ⟨hmain, by decide, ?_⟩
  intro old hold
  rw [Save_eq, List.drop_of_length_le hold, List.append_nil]
  exact hmain

/-- Witness of `ReadHostLines_serialize`: three lines, the second one empty. -/
theorem ReadHostLines_serialize_witness :
    ReadHostLines (some (["127.0.0.1 localhost".toList, [], "# x".toList].flatMap
      fun l => l ++ "\n".toList)) =
      some (LoadResult.ok ["127.0.0.1 localhost".toList, [], "# x".toList]) :=
  (ReadHostLines_serialize ["127.0.0.1 localhost".toList, [], "# x".toList] (by decide)).1

/-! ## The command line -/

/-- C12, counterexample: with first argument `-x` the process exits inside
`flag.Parse` and `run` returns no unknown-command error; with first argument
`--` followed by `block` the file is rewritten and the report is printed. -/
theorem run_unknown_cmd_counterexample :
    run ["-x".toList] ⟨some "127.0.0.1 localhost\n".toList, true, []⟩ =
      some (Outcome.exited, ⟨some "127.0.0.1 localhost\n".toList, true, []⟩) ∧
    run ["--".toList, "block".toList] ⟨some "# 127.0.0.1 a # do not edit; managed by github.com/felixge/hosts\n".toList, true, []⟩ =
      some (Outcome.returned none,
        ⟨some "127.0.0.1 a # do not edit; managed by github.com/felixge/hosts\ns\n".toList, true,
          "Unblocked:\n\nBlocked:\n  a\n".toList⟩) := by
  decide

/-- C12, as amended: after the file was read successfully, for every first
argument that is not flag-like (shorter than two bytes, or not starting with
`-`) and is other than the empty string, `block` and `unblock`, `run` returns
the unknown-command error for it, and the file and the standard output are
unchanged. A flag-like first argument other than `--` ends the process inside
`flag.Parse`, with the file and the standard output unchanged as well. -/
theorem run_unknown_cmd (a : List Char) (rest : List (List Char)) (w : World)
    (hl : HostLines) (hread : ReadHostLines w.file = some (LoadResult.ok hl))
    (hflag : a.length < 2 ∨ a.head? ≠ some '-')
    (h1 : a ≠ []) (h2 : a ≠ "block".toList) (h3 : a ≠ "unblock".toList) :
    run (a :: rest) w = some (Outcome.returned (some (RunError.unknownCmd a)), w) ∧
    ∀ (f : List Char), ¬ (f.length < 2 ∨ f.head? ≠ some '-') → f ≠ "--".toList →
      run (f :: rest) w = some (Outcome.exited, w) := by
  have h2c : a ≠ ['b', 'l', 'o', 'c', 'k'] := h2
  have h3c : a ≠ ['u', 'n', 'b', 'l', 'o', 'c', 'k'] := h3
  constructor
  · simp [run, hread, flagParse, hflag, flagArg, h1, h2c, h3c]
  · intro f hf hdd
    have hddc : f ≠ ['-', '-'] := hdd
    simp [run, hread, flagParse, hf, hddc]

/-- Witness of `run_unknown_cmd`: the command `remove`. -/
theorem run_unknown_cmd_witness :
    run ["remove".toList, "a".toList] ⟨some "# 127.0.0.1 a # do not edit; managed by github.com/felixge/hosts\n".toList, true, []⟩ =
      some (Outcome.returned (some (RunError.unknownCmd "remove".toList)),
        ⟨some "# 127.0.0.1 a # do not edit; managed by github.com/felixge/hosts\n".toList, true, []⟩) :=
  (run_unknown_cmd "remove".toList ["a".toList] ⟨some "# 127.0.0.1 a # do not edit; managed by github.com/felixge/hosts\n".toList, true, []⟩
    ["# 127.0.0.1 a # do not edit; managed by github.com/felixge/hosts".toList] (by decide) (by decide) (by decide) (by decide)
    (by decide)).1

/-- When the host file is readable but may not be opened for writing, `block`
and `unblock` return the error of `Save`; the file and the standard output
stay as they were, so no report is printed. -/
theorem run_save_error (rest : List (List Char)) (w : World) (hl : HostLines)
    (hread : ReadHostLines w.file = some (LoadResult.ok hl)) (hw : w.writable = false) :
    run ("block".toList :: rest) w = some (Outcome.returned (some RunError.save), w) ∧
    run ("unblock".toList :: rest) w = some (Outcome.returned (some RunError.save), w) := by
  constructor <;> simp [run, hread, flagParse, flagArg, hw, Save, OpenFile]

end Hosts
